import Mathlib

/-!
# Shortner: URL canonicalisation and short-code issuance

A shallow embedding of `main.go` (package `main`) together with the parts of the Go
standard library (`net/url`, `strings`, `unicode/utf8`, `regexp`) that `cleanURL`,
`generateCode`, `shortenHandler` and `redirectHandler` run through. The library is
followed as of Go 1.21: `parseQuery` skips a pair that holds a semicolon, and `URL` has
the `OmitHost` field.

Go strings are byte sequences; a byte is a natural number below 256 and a string is a
list of bytes.  Character constants are written as their ASCII codes, with the
character in a comment.
-/

set_option autoImplicit false

namespace Shortner

/-- A Go string: its bytes, in order. -/
abbrev GoString := List Nat

/-- Every element is a byte. Go strings always satisfy this. -/
def IsBytes (s : GoString) : Prop := ∀ c ∈ s, c < 256

instance (s : GoString) : Decidable (IsBytes s) := by
  unfold IsBytes; infer_instance

/-- UTF-8 encoding of one code point, as Go source text stores a string literal. -/
def utf8Bytes (n : Nat) : GoString :=
  if n < 0x80 then [n]
  else if n < 0x800 then [0xC0 + n / 64, 0x80 + n % 64]
  else if n < 0x10000 then [0xE0 + n / 4096, 0x80 + n / 64 % 64, 0x80 + n % 64]
  else [0xF0 + n / 262144, 0x80 + n / 4096 % 64, 0x80 + n / 64 % 64, 0x80 + n % 64]

/-- The bytes of a string literal. -/
def str (s : String) : GoString := s.toList.flatMap fun c => utf8Bytes c.toNat

/-! ## `unicode/utf8` and `unicode` -/

/-- `utf8.RuneError`. -/
def RuneError : Nat := 0xFFFD

/-- The `first` table of `unicode/utf8`: information about the first byte of an
encoding (`as` = 0xF0 for ASCII, `xx` = 0xF1 for an invalid byte, otherwise the size
in the low bits and the index of the accept range in the high bits). -/
def first (b : Nat) : Nat :=
  if b < 0x80 then 0xF0
  else if b < 0xC2 then 0xF1
  else if b < 0xE0 then 0x02
  else if b = 0xE0 then 0x13
  else if b < 0xED then 0x03
  else if b = 0xED then 0x23
  else if b < 0xF0 then 0x03
  else if b = 0xF0 then 0x34
  else if b < 0xF4 then 0x04
  else if b = 0xF4 then 0x44
  else 0xF1

/-- The `acceptRanges` table: the bounds allowed for the second byte. -/
def acceptRanges (i : Nat) : Nat × Nat :=
  match i with
  | 0 => (0x80, 0xBF)
  | 1 => (0xA0, 0xBF)
  | 2 => (0x80, 0x9F)
  | 3 => (0x90, 0xBF)
  | 4 => (0x80, 0x8F)
  | _ => (0, 0)

/-- `utf8.DecodeRuneInString`: the first rune of `s` and its width in bytes. -/
def DecodeRuneInString (s : GoString) : Nat × Nat :=
  match s with
  | [] => (RuneError, 0)
  | s0 :: t =>
    let x := first s0
    if x ≥ 0xF0 then (if x = 0xF0 then s0 else RuneError, 1)
    else
      let sz := x % 8
      let accept := acceptRanges (x / 16)
      if s.length < sz then (RuneError, 1)
      else
        match t with
        | [] => (RuneError, 1)
        | s1 :: t1 =>
          if s1 < accept.1 ∨ accept.2 < s1 then (RuneError, 1)
          else if sz ≤ 2 then (s0 % 32 * 64 + s1 % 64, 2)
          else
            match t1 with
            | [] => (RuneError, 1)
            | s2 :: t2 =>
              if s2 < 0x80 ∨ 0xBF < s2 then (RuneError, 1)
              else if sz ≤ 3 then (s0 % 16 * 4096 + s1 % 64 * 64 + s2 % 64, 3)
              else
                match t2 with
                | [] => (RuneError, 1)
                | s3 :: _ =>
                  if s3 < 0x80 ∨ 0xBF < s3 then (RuneError, 1)
                  else (s0 % 8 * 262144 + s1 % 64 * 4096 + s2 % 64 * 64 + s3 % 64, 4)

/-- `utf8.RuneStart`: the byte is not a continuation byte. -/
def RuneStart (b : Nat) : Bool := b / 64 % 4 ≠ 2

/-- The backward scan of `DecodeLastRuneInString`: from `start`, step down to the first
index not below `lim` that holds a rune start; one below `lim` when there is none.
Indices are shifted up by one so that the result `0` stands for `-1`. -/
def scanRuneStart (s : GoString) (lim : Nat) : Nat → Nat
  | 0 => 0
  | start + 1 =>
    if start < lim then start + 1
    else if RuneStart (s.getD start 0) then start + 1
    else scanRuneStart s lim start

/-- `utf8.DecodeLastRuneInString`: the last rune of `s` and its width in bytes. -/
def DecodeLastRuneInString (s : GoString) : Nat × Nat :=
  let «end» := s.length
  if «end» = 0 then (RuneError, 0)
  else
    let r := s.getD («end» - 1) 0
    if r < 0x80 then (r, 1)
    else
      let lim := «end» - 4
      -- `start--` first, then the loop; `scanRuneStart` works on `start + 1`
      let start := scanRuneStart s lim («end» - 1) - 1
      let (r, size) := DecodeRuneInString (s.drop start)
      if start + size ≠ «end» then (RuneError, 1) else (r, size)

/-- `unicode.IsSpace`. -/
def IsSpace (r : Nat) : Bool :=
  if r ≤ 0xFF then r ∈ [9, 10, 11, 12, 13, 32, 0x85, 0xA0]
  else r = 0x1680 ∨ (0x2000 ≤ r ∧ r ≤ 0x200A) ∨ r = 0x2028 ∨ r = 0x2029 ∨ r = 0x202F ∨
    r = 0x205F ∨ r = 0x3000

/-! ## `strings` -/

/-- The loop of `strings.TrimLeftFunc` with `unicode.IsSpace`: drop leading runes while
they are spaces. `fuel` bounds the number of runes. -/
def trimLeftSpaceLoop : Nat → GoString → GoString
  | 0, s => s
  | fuel + 1, s =>
    if s = [] then []
    else
      let (r, n) := DecodeRuneInString s
      if IsSpace r then trimLeftSpaceLoop fuel (s.drop n) else s

/-- `strings.TrimLeftFunc(s, unicode.IsSpace)`. -/
def TrimLeftFuncSpace (s : GoString) : GoString := trimLeftSpaceLoop s.length s

/-- The loop of `lastIndexFunc(s, unicode.IsSpace, false)`: the start index of the last
rune that is not a space, `none` for `-1`. `i` is the current end. -/
def lastIndexNotSpace (s : GoString) : Nat → Nat → Option Nat
  | 0, _ => none
  | fuel + 1, i =>
    if i = 0 then none
    else
      let (r, size) := DecodeLastRuneInString (s.take i)
      if IsSpace r then lastIndexNotSpace s fuel (i - size) else some (i - size)

/-- `strings.TrimRightFunc(s, unicode.IsSpace)`. -/
def TrimRightFuncSpace (s : GoString) : GoString :=
  match lastIndexNotSpace s s.length s.length with
  | none => []
  | some i =>
    if s.getD i 0 ≥ 0x80 then s.take (i + (DecodeRuneInString (s.drop i)).2)
    else s.take (i + 1)

/-- `strings.TrimFunc(s, unicode.IsSpace)`. -/
def TrimFuncSpace (s : GoString) : GoString := TrimRightFuncSpace (TrimLeftFuncSpace s)

/-- The `asciiSpace` table of `strings`. -/
def asciiSpace (c : Nat) : Bool := c ∈ [9, 10, 11, 12, 13, 32]

/-- The second loop of `strings.TrimSpace`, on the reversed remainder: look for the
first ASCII non-space byte from the end. -/
def trimSpaceStop : GoString → GoString
  | [] => []
  | c :: r =>
    if c ≥ 0x80 then TrimRightFuncSpace (c :: r).reverse
    else if asciiSpace c then trimSpaceStop r
    else (c :: r).reverse

/-- `strings.TrimSpace`: the ASCII fast path, falling back to the rune-aware trimming
at the first non-ASCII byte it runs into. -/
def TrimSpace : GoString → GoString
  | [] => []
  | c :: rest =>
    if c ≥ 0x80 then TrimFuncSpace (c :: rest)
    else if asciiSpace c then TrimSpace rest
    else trimSpaceStop (c :: rest).reverse

/-- `strings.Trim(s, cutset)` for a cutset of at least two ASCII bytes
(`trimLeftASCII(trimRightASCII(s, &as), &as)`). -/
def Trim (s cutset : GoString) : GoString :=
  (s.rdropWhile fun c => decide (c ∈ cutset)).dropWhile fun c => decide (c ∈ cutset)

/-- `strings.Cut(s, sep)` for a one-byte separator: the text before and after the
first occurrence of `sep`; all of `s` and the empty string when there is none. -/
def Cut (s : GoString) (sep : Nat) : GoString × GoString :=
  (s.takeWhile (· ≠ sep), (s.dropWhile (· ≠ sep)).drop 1)

/-- `strings.Contains(s, sep)` for a one-byte separator. -/
def Contains (s : GoString) (sep : Nat) : Bool := decide (sep ∈ s)

/-- `strings.HasPrefix`. -/
def HasPrefix (s pre : GoString) : Bool := pre.isPrefixOf s

/-- `strings.LastIndex(s, sep)` for a one-byte separator; `none` for `-1`. -/
def LastIndex : GoString → Nat → Option Nat
  | [], _ => none
  | x :: xs, sep =>
    match LastIndex xs sep with
    | some i => some (i + 1)
    | none => if x = sep then some 0 else none

/-- `strings.Index(s, sep)`; `none` for `-1`. -/
def Index : GoString → GoString → Option Nat
  | [], sep => if sep = [] then some 0 else none
  | x :: xs, sep =>
    if sep.isPrefixOf (x :: xs) then some 0
    else (Index xs sep).map (· + 1)

/-- `strings.ToLower` on an ASCII string (the only strings it is given here). -/
def ToLower (s : GoString) : GoString :=
  s.map fun c => if 65 ≤ c ∧ c ≤ 90 then c + 32 else c

/-! ## `net/url`: escaping -/

/-- The `encoding` modes of `net/url`. -/
inductive Encoding
  | encodePath
  | encodePathSegment
  | encodeHost
  | encodeZone
  | encodeUserPassword
  | encodeQueryComponent
  | encodeFragment
  deriving DecidableEq, Repr

open Encoding

/-- The errors `net/url` reports while parsing. -/
inductive UrlError
  | escapeError
  | invalidHostError
  | invalidControlCharacter
  | missingProtocolScheme
  | firstPathSegmentColon
  | missingBracket
  | invalidPort
  | invalidUserinfo
  deriving DecidableEq, Repr

deriving instance DecidableEq for Except

/-- `ishex`: the byte is one of `0-9a-fA-F`. -/
def ishex (c : Nat) : Bool :=
  (48 ≤ c ∧ c ≤ 57) ∨ (97 ≤ c ∧ c ≤ 102) ∨ (65 ≤ c ∧ c ≤ 70)

/-- `unhex`: the value of a hex digit, 0 for any other byte. -/
def unhex (c : Nat) : Nat :=
  if 48 ≤ c ∧ c ≤ 57 then c - 48
  else if 97 ≤ c ∧ c ≤ 102 then c - 97 + 10
  else if 65 ≤ c ∧ c ≤ 70 then c - 65 + 10
  else 0

/-- `upperhex[n]` where `upperhex = "0123456789ABCDEF"`. -/
def upperhex (n : Nat) : Nat := if n < 10 then 48 + n else 55 + n

/-- `shouldEscape`: whether byte `c` must be percent-encoded in the given part of a URL. -/
def shouldEscape (c : Nat) (mode : Encoding) : Bool :=
  -- unreserved alphanumerics
  if (97 ≤ c ∧ c ≤ 122) ∨ (65 ≤ c ∧ c ≤ 90) ∨ (48 ≤ c ∧ c ≤ 57) then false
  else if (mode = encodeHost ∨ mode = encodeZone) ∧
      -- ! $ & ' ( ) * + , ; = : [ ] < > "
      c ∈ [33, 36, 38, 39, 40, 41, 42, 43, 44, 59, 61, 58, 91, 93, 60, 62, 34] then false
  -- - _ . ~
  else if c ∈ [45, 95, 46, 126] then false
  -- $ & + , / : ; = ? @
  else if c ∈ [36, 38, 43, 44, 47, 58, 59, 61, 63, 64] then
    match mode with
    | encodePath => c = 63
    | encodePathSegment => c = 47 ∨ c = 59 ∨ c = 44 ∨ c = 63
    | encodeUserPassword => c = 64 ∨ c = 47 ∨ c = 63 ∨ c = 58
    | encodeQueryComponent => true
    | encodeFragment => false
    | _ => true
  -- ! ( ) *
  else if mode = encodeFragment ∧ c ∈ [33, 40, 41, 42] then false
  else true

/-- `escape`: a space becomes `+` in a query component, every other byte that
`shouldEscape` becomes `%XX`, the rest is copied. -/
def escape (s : GoString) (mode : Encoding) : GoString :=
  s.flatMap fun c =>
    if c = 32 ∧ mode = encodeQueryComponent then [43]
    else if shouldEscape c mode then [37, upperhex (c / 16 % 16), upperhex (c % 16)]
    else [c]

/-- `unescape`: decodes `%XX` (and `+` to a space in a query component); fails at the
leftmost malformed escape or, in host and zone mode, at a byte a host may not hold. -/
def unescape : GoString → Encoding → Except UrlError GoString
  | [], _ => .ok []
  | c :: rest, mode =>
    if c = 37 then
      match rest with
      | a :: b :: rest2 =>
        if ¬ (ishex a ∧ ishex b) then .error .escapeError
        else if mode = encodeHost ∧ unhex a < 8 ∧ ¬ (a = 50 ∧ b = 53) then .error .escapeError
        else if mode = encodeZone ∧ ¬ (a = 50 ∧ b = 53) ∧ unhex a * 16 + unhex b ≠ 32 ∧
            shouldEscape (unhex a * 16 + unhex b) encodeHost then .error .escapeError
        else
          match unescape rest2 mode with
          | .ok t => .ok ((unhex a * 16 + unhex b) :: t)
          | .error e => .error e
      | _ => .error .escapeError
    else if c = 43 then
      match unescape rest mode with
      | .ok t => .ok ((if mode = encodeQueryComponent then 32 else 43) :: t)
      | .error e => .error e
    else if (mode = encodeHost ∨ mode = encodeZone) ∧ c < 128 ∧ shouldEscape c encodeHost then
      .error .invalidHostError
    else
      match unescape rest mode with
      | .ok t => .ok (c :: t)
      | .error e => .error e

/-- `url.QueryEscape`. -/
def QueryEscape (s : GoString) : GoString := escape s encodeQueryComponent

/-- `url.QueryUnescape`. -/
def QueryUnescape (s : GoString) : Except UrlError GoString := unescape s encodeQueryComponent

/-! ## `net/url`: the `URL` type and `Parse` -/

/-- `url.Userinfo`. -/
structure Userinfo where
  username : GoString
  password : GoString
  passwordSet : Bool
  deriving DecidableEq, Repr

/-- `url.URL`. -/
structure URL where
  Scheme : GoString := []
  Opaque : GoString := []
  User : Option Userinfo := none
  Host : GoString := []
  Path : GoString := []
  RawPath : GoString := []
  OmitHost : Bool := false
  ForceQuery : Bool := false
  RawQuery : GoString := []
  Fragment : GoString := []
  RawFragment : GoString := []
  deriving DecidableEq, Repr

/-- `stringContainsCTLByte`: some byte is an ASCII control character. -/
def stringContainsCTLByte (s : GoString) : Bool := s.any fun b => b < 32 ∨ b = 0x7f

/-- The loop of `getScheme`; `i` is the index of the first byte of the remainder. -/
def getSchemeLoop (rawURL : GoString) : Nat → GoString → Except UrlError (GoString × GoString)
  | _, [] => .ok ([], rawURL)
  | i, c :: rest =>
    if (97 ≤ c ∧ c ≤ 122) ∨ (65 ≤ c ∧ c ≤ 90) then getSchemeLoop rawURL (i + 1) rest
    else if (48 ≤ c ∧ c ≤ 57) ∨ c = 43 ∨ c = 45 ∨ c = 46 then
      if i = 0 then .ok ([], rawURL) else getSchemeLoop rawURL (i + 1) rest
    else if c = 58 then
      if i = 0 then .error .missingProtocolScheme else .ok (rawURL.take i, rest)
    else .ok ([], rawURL)

/-- `getScheme`: splits a leading `scheme:` off; the scheme is empty when there is none. -/
def getScheme (rawURL : GoString) : Except UrlError (GoString × GoString) :=
  getSchemeLoop rawURL 0 rawURL

/-- `validOptionalPort`: empty, or a colon followed by decimal digits only. -/
def validOptionalPort (port : GoString) : Bool :=
  match port with
  | [] => true
  | c :: rest => c = 58 ∧ rest.all fun b => 48 ≤ b ∧ b ≤ 57

/-- `validUserinfo`: only bytes that RFC 3986 allows in a userinfo. -/
def validUserinfo (s : GoString) : Bool :=
  s.all fun r =>
    (65 ≤ r ∧ r ≤ 90) ∨ (97 ≤ r ∧ r ≤ 122) ∨ (48 ≤ r ∧ r ≤ 57) ∨
    -- - . _ : ~ ! $ & ' ( ) * + , ; = % @
    r ∈ [45, 46, 95, 58, 126, 33, 36, 38, 39, 40, 41, 42, 43, 44, 59, 61, 37, 64]

/-- `parseHost`: validates the port and unescapes the host. -/
def parseHost (host : GoString) : Except UrlError GoString :=
  if HasPrefix host [91] then
    match LastIndex host 93 with
    | none => .error .missingBracket
    | some i =>
      if ¬ validOptionalPort (host.drop (i + 1)) then .error .invalidPort
      else
        match Index (host.take i) [37, 50, 53] with
        | some zone =>
          match unescape (host.take zone) encodeHost with
          | .error e => .error e
          | .ok host1 =>
            match unescape ((host.take i).drop zone) encodeZone with
            | .error e => .error e
            | .ok host2 =>
              match unescape (host.drop i) encodeHost with
              | .error e => .error e
              | .ok host3 => .ok (host1 ++ host2 ++ host3)
        | none => unescape host encodeHost
  else
    match LastIndex host 58 with
    | some i =>
      if ¬ validOptionalPort (host.drop i) then .error .invalidPort
      else unescape host encodeHost
    | none => unescape host encodeHost

/-- `parseAuthority`: splits `user:password@host` and parses each part. -/
def parseAuthority (authority : GoString) : Except UrlError (Option Userinfo × GoString) :=
  let i := LastIndex authority 64
  match (match i with
         | none => parseHost authority
         | some i => parseHost (authority.drop (i + 1))) with
  | .error e => .error e
  | .ok host =>
    match i with
    | none => .ok (none, host)
    | some i =>
      let userinfo := authority.take i
      if ¬ validUserinfo userinfo then .error .invalidUserinfo
      else if ¬ Contains userinfo 58 then
        match unescape userinfo encodeUserPassword with
        | .error e => .error e
        | .ok userinfo => .ok (some ⟨userinfo, [], false⟩, host)
      else
        let (username, password) := Cut userinfo 58
        match unescape username encodeUserPassword with
        | .error e => .error e
        | .ok username =>
          match unescape password encodeUserPassword with
          | .error e => .error e
          | .ok password => .ok (some ⟨username, password, true⟩, host)

/-- `URL.setPath`: stores the decoded path, and the raw one when it is not the default
encoding of the decoded path. -/
def URL.setPath (u : URL) (p : GoString) : Except UrlError URL :=
  match unescape p encodePath with
  | .error e => .error e
  | .ok path =>
    if p = escape path encodePath then .ok { u with Path := path, RawPath := [] }
    else .ok { u with Path := path, RawPath := p }

/-- `URL.setFragment`: like `setPath`, for the fragment. -/
def URL.setFragment (u : URL) (f : GoString) : Except UrlError URL :=
  match unescape f encodeFragment with
  | .error e => .error e
  | .ok frag =>
    if f = escape frag encodeFragment then .ok { u with Fragment := frag, RawFragment := [] }
    else .ok { u with Fragment := frag, RawFragment := f }

/-- The second half of `parse(rawURL, false)`, once scheme and query are split off and
stored in `url`: `rest` holds authority and path. -/
def parseRest (url : URL) (rest : GoString) : Except UrlError URL :=
  if ¬ HasPrefix rest [47] ∧ url.Scheme ≠ [] then
    -- rootless paths are opaque
    .ok { url with Opaque := rest }
  else if ¬ HasPrefix rest [47] ∧ Contains (Cut rest 47).1 58 then
    .error .firstPathSegmentColon
  else if (url.Scheme ≠ [] ∨ ¬ HasPrefix rest [47, 47, 47]) ∧ HasPrefix rest [47, 47] then
    let authority := (rest.drop 2).takeWhile (· ≠ 47)
    let rest := (rest.drop 2).dropWhile (· ≠ 47)
    match parseAuthority authority with
    | .error e => .error e
    | .ok (user, host) => URL.setPath { url with User := user, Host := host } rest
  else if url.Scheme ≠ [] ∧ HasPrefix rest [47] then
    URL.setPath { url with OmitHost := true } rest
  else URL.setPath url rest

/-- `parse(rawURL, false)`: parses a URL without its fragment. -/
def parse (rawURL : GoString) : Except UrlError URL :=
  if stringContainsCTLByte rawURL then .error .invalidControlCharacter
  else if rawURL = [42] then .ok { Path := [42] }
  else
    match getScheme rawURL with
    | .error e => .error e
    | .ok (scheme, rest) =>
      if rest.getLast? = some 63 ∧ rest.count 63 = 1 then
        parseRest { Scheme := ToLower scheme, ForceQuery := true } rest.dropLast
      else
        parseRest { Scheme := ToLower scheme, RawQuery := (Cut rest 63).2 } (Cut rest 63).1

/-- `url.Parse`: cuts the fragment off, parses the rest, then sets the fragment. -/
def Parse (rawURL : GoString) : Except UrlError URL :=
  let (u, frag) := Cut rawURL 35
  match parse u with
  | .error e => .error e
  | .ok url => if frag = [] then .ok url else URL.setFragment url frag

/-! ## `net/url`: `URL.String` -/

/-- `validEncoded`: `s` is a valid encoded path or fragment. -/
def validEncoded (s : GoString) (mode : Encoding) : Bool :=
  s.all fun c =>
    -- ! $ & ' ( ) * + , ; = : @ [ ] %
    if c ∈ [33, 36, 38, 39, 40, 41, 42, 43, 44, 59, 61, 58, 64, 91, 93, 37] then true
    else ¬ shouldEscape c mode

/-- `URL.EscapedPath`. -/
def URL.EscapedPath (u : URL) : GoString :=
  if u.RawPath ≠ [] ∧ validEncoded u.RawPath encodePath ∧
      unescape u.RawPath encodePath = .ok u.Path then u.RawPath
  else if u.Path = [42] then [42]
  else escape u.Path encodePath

/-- `URL.EscapedFragment`. -/
def URL.EscapedFragment (u : URL) : GoString :=
  if u.RawFragment ≠ [] ∧ validEncoded u.RawFragment encodeFragment ∧
      unescape u.RawFragment encodeFragment = .ok u.Fragment then u.RawFragment
  else escape u.Fragment encodeFragment

/-- `Userinfo.String`. -/
def Userinfo.String (u : Userinfo) : GoString :=
  escape u.username encodeUserPassword ++
    (if u.passwordSet then 58 :: escape u.password encodeUserPassword else [])

/-- The part of `URL.String` written before the query: scheme, then either the opaque
part or authority and path. -/
def URL.stringHead (u : URL) : GoString :=
  let buf : GoString := if u.Scheme ≠ [] then u.Scheme ++ [58] else []
  if u.Opaque ≠ [] then buf ++ u.Opaque
  else
    let buf :=
      if u.Scheme ≠ [] ∨ u.Host ≠ [] ∨ u.User ≠ none then
        if u.OmitHost ∧ u.Host = [] ∧ u.User = none then buf
        else
          let buf := if u.Host ≠ [] ∨ u.Path ≠ [] ∨ u.User ≠ none then buf ++ [47, 47] else buf
          let buf :=
            match u.User with
            | some ui => buf ++ ui.String ++ [64]
            | none => buf
          if u.Host ≠ [] then buf ++ escape u.Host encodeHost else buf
      else buf
    let path := u.EscapedPath
    let buf := if path ≠ [] ∧ path.head? ≠ some 47 ∧ u.Host ≠ [] then buf ++ [47] else buf
    let buf := if buf = [] ∧ Contains (Cut path 47).1 58 then buf ++ [46, 47] else buf
    buf ++ path

/-- `URL.String`: reassembles the URL. -/
def URL.String (u : URL) : GoString :=
  let buf := u.stringHead
  let buf := if u.ForceQuery ∨ u.RawQuery ≠ [] then buf ++ [63] ++ u.RawQuery else buf
  if u.Fragment ≠ [] then buf ++ [35] ++ u.EscapedFragment else buf

/-! ## `net/url`: `Values` -/

/-- `url.Values`, a `map[string][]string`: each key occurs once, with its values in
the order they were added. -/
abbrev Values := List (GoString × List GoString)

/-- The values stored under `key` (`v[key]`), empty when the key is absent. -/
def Values.lookup (m : Values) (key : GoString) : List GoString :=
  match m with
  | [] => []
  | (k, vs) :: rest => if k = key then vs else Values.lookup rest key

/-- The assignment `m[key] = append(m[key], value)`. -/
def Values.add (m : Values) (key value : GoString) : Values :=
  match m with
  | [] => [(key, [value])]
  | (k, vs) :: rest =>
    if k = key then (k, vs ++ [value]) :: rest else (k, vs) :: Values.add rest key value

/-- `Values.Del`: `delete(v, key)`. -/
def Values.Del (m : Values) (key : GoString) : Values := m.filter fun kv => kv.1 ≠ key

/-- The segments of a query between its `&` separators, in order. -/
def splitAmp : GoString → List GoString
  | [] => [[]]
  | c :: rest =>
    if c = 38 then [] :: splitAmp rest
    else
      match splitAmp rest with
      | seg :: segs => (c :: seg) :: segs
      | [] => [[c]]

/-- One pass of the loop of `parseQuery` on the segment cut off at the next `&`: the
decoded key and value, or `none` when the segment is skipped (it holds a semicolon, is
empty, or its key or value does not decode). -/
def parsePair (key : GoString) : Option (GoString × GoString) :=
  if Contains key 59 then none
  else if key = [] then none
  else
    match QueryUnescape (Cut key 61).1 with
    | .error _ => none
    | .ok k =>
      match QueryUnescape (Cut key 61).2 with
      | .error _ => none
      | .ok v => some (k, v)

/-- The (name, value) parameters that `parseQuery` adds to the map, in the order of
the query string. -/
def queryPairs (query : GoString) : List (GoString × GoString) :=
  (splitAmp query).filterMap parsePair

/-- `url.ParseQuery`, its error dropped as `URL.Query` does: every accepted pair is
appended to the values of its key. -/
def ParseQuery (query : GoString) : Values :=
  (queryPairs query).foldl (fun m kv => Values.add m kv.1 kv.2) []

/-- `URL.Query`. -/
def URL.Query (u : URL) : Values := ParseQuery u.RawQuery

/-- Byte-wise lexicographic order of Go strings (`a <= b`). -/
def strLe : GoString → GoString → Bool
  | [], _ => true
  | _ :: _, [] => false
  | a :: as, b :: bs => if a < b then true else if b < a then false else strLe as bs

/-- `slices.Sort(keys)`. -/
def sortKeys (keys : List GoString) : List GoString :=
  keys.insertionSort fun a b => strLe a b = true

/-- The inner loop of `Values.Encode`: writes `key=value` for each value of one key,
with a `&` in front whenever the buffer is not empty. -/
def encodeKey (keyEscaped : GoString) (vs : List GoString) (buf : GoString) : GoString :=
  vs.foldl (fun buf v =>
    (if buf ≠ [] then buf ++ [38] else buf) ++ keyEscaped ++ [61] ++ QueryEscape v) buf

/-- `Values.Encode`: the parameters in "URL encoded" form, sorted by key. -/
def Values.Encode (v : Values) : GoString :=
  if v.length = 0 then []
  else
    (sortKeys (v.map Prod.fst)).foldl
      (fun buf k => encodeKey (QueryEscape k) (Values.lookup v k) buf) []

/-! ## `regexp` -/

/-- The regular expressions the redirect pattern is built from. -/
inductive Re
  /-- A literal string. -/
  | lit (s : GoString)
  /-- The greedy `r?`. -/
  | opt (r : Re)
  /-- The alternation `a|b`, preferring `a`. -/
  | alt (a b : Re)
  /-- The capturing group number `i`. -/
  | cap (i : Nat) (r : Re)
  /-- The concatenation `ab`. -/
  | seq (a b : Re)
  /-- The lazy `.*?`; `.` matches anything but a newline. -/
  | lazyStarAny
  /-- The greedy `[^c]+`. -/
  | plusNot (c : Nat)

/-- The capture groups set so far, the latest first. -/
abbrev Caps := List (Nat × GoString)

/-- The lazy `.*?`: try the continuation first, then skip one more byte that is not a
newline. -/
def runLazyStarAny (k : GoString → Caps → Option Caps) (caps : Caps) : GoString → Option Caps
  | [] => k [] caps
  | c :: t => (k (c :: t) caps).or (if c ≠ 10 then runLazyStarAny k caps t else none)

/-- The greedy `[^c]*`: take one more byte as long as that leads to a match, else go on
with the continuation. -/
def runGreedyStarNot (c : Nat) (k : GoString → Caps → Option Caps) (caps : Caps) :
    GoString → Option Caps
  | [] => k [] caps
  | x :: t =>
    if x ≠ c then (runGreedyStarNot c k caps t).or (k (x :: t) caps)
    else k (x :: t) caps

/-- Backtracking matcher: match `r` at the start of `s`, then go on with `k` on what is
left; `a.or b` tries `b` only when `a` found no match, so the first success in the
order of preferences is the leftmost-first match that `regexp` reports. -/
def Re.run : Re → GoString → Caps → (GoString → Caps → Option Caps) → Option Caps
  | .lit l, s, caps, k => if l.isPrefixOf s then k (s.drop l.length) caps else none
  | .opt r, s, caps, k => (Re.run r s caps k).or (k s caps)
  | .alt a b, s, caps, k => (Re.run a s caps k).or (Re.run b s caps k)
  | .cap i r, s, caps, k =>
    Re.run r s caps fun s' caps' => k s' ((i, s.take (s.length - s'.length)) :: caps')
  | .seq a b, s, caps, k => Re.run a s caps fun s' caps' => Re.run b s' caps' k
  | .lazyStarAny, s, caps, k => runLazyStarAny k caps s
  | .plusNot c, s, caps, k =>
    match s with
    | [] => none
    | x :: t => if x ≠ c then runGreedyStarNot c k caps t else none

/-- The first start position, from the left, at which `re` matches. The whole match is
recorded as group 0. -/
def Re.find (re : Re) : GoString → Option Caps
  | [] => Re.run re [] [] fun _ caps => some ((0, []) :: caps)
  | c :: t =>
    (Re.run re (c :: t) [] fun s' caps =>
      some ((0, (c :: t).take ((c :: t).length - s'.length)) :: caps)).or (Re.find re t)

/-- The text of group `i`, empty when the group took no part in the match. -/
def Caps.group (caps : Caps) (i : Nat) : GoString :=
  match caps.find? fun p => p.1 = i with
  | some p => p.2
  | none => []

/-- `Regexp.FindStringSubmatch` for an expression with `n` groups: the whole match and
the `n` groups, or the empty slice when there is no match. -/
def FindStringSubmatch (re : Re) (n : Nat) (s : GoString) : List GoString :=
  match Re.find re s with
  | none => []
  | some caps => (List.range (n + 1)).map caps.group

/-! ## `main.go` -/

/-- The tracking parameters that `cleanURL` removes. -/
def trackingParams : List GoString :=
  [str "utm_source", str "utm_medium", str "utm_campaign", str "utm_term", str "utm_content",
   str "fbclid", str "gclid", str "mc_eid", str "mc_cid", str "trk", str "msclkid", str "dclid"]

/-- The pattern `https?://(www\.)?(l|out)\.google\.com/url\?.*?url=([^&]+)`. -/
def redirectRe : Re :=
  .seq (.lit (str "http")) <| .seq (.opt (.lit (str "s"))) <| .seq (.lit (str "://")) <|
  .seq (.opt (.cap 1 (.lit (str "www.")))) <| .seq (.cap 2 (.alt (.lit (str "l")) (.lit (str "out")))) <|
  .seq (.lit (str ".google.com/url?")) <| .seq .lazyStarAny <| .seq (.lit (str "url=")) <|
  .cap 3 (.plusNot 38)

/-! ## `fullyDecode` -/

/-- The loop of `fullyDecode`, run for at most `fuel` passes; `none` when the passes
are used up before the loop breaks. -/
def fullyDecodeLoop : Nat → GoString → Option GoString
  | 0, _ => none
  | fuel + 1, decoded =>
    match QueryUnescape decoded with
    | .error _ => some decoded
    | .ok temp => if temp = decoded then some decoded else fullyDecodeLoop fuel temp

/-- The number of `+` bytes of a string. -/
def plusCount (s : GoString) : Nat := s.count 43

/-- The measure that every changing pass of `fullyDecode` decreases. -/
def decodeMeasure (s : GoString) : Nat := s.length + plusCount s

/-- `fullyDecode`: repeatedly decodes until a pass fails or changes nothing.  The loop
is given `decodeMeasure raw + 1` passes, which it never uses up
(`fullyDecodeLoop_enough`). -/
def fullyDecode (raw : GoString) : GoString :=
  (fullyDecodeLoop (decodeMeasure raw + 1) raw).getD raw

/-- The first two statements of `cleanURL`: trim whitespace, then the angle brackets. -/
def trimInput (rawURL : GoString) : GoString := Trim (TrimSpace rawURL) [60, 62]

/-- The tracking-parameter loop of `cleanURL`: `q.Del(param)` for each parameter. -/
def delTracking (q : Values) : Values := trackingParams.foldl Values.Del q

/-- The URL that `cleanURL` rebuilds: the parsed URL with the query re-encoded after
the tracking parameters are deleted. -/
def rebuild (parsedURL : URL) : URL :=
  { parsedURL with RawQuery := (delTracking parsedURL.Query).Encode }

/-- The redirect check of `cleanURL` on the string form of the rebuilt URL: the
destination when the pattern matches and its third group decodes. -/
def unwrapRedirect (s : GoString) : Option GoString :=
  let «matches» := FindStringSubmatch redirectRe 3 s
  if «matches».length = 4 then
    match QueryUnescape («matches».getD 3 []) with
    | .ok extracted => some extracted
    | .error _ => none
  else none

/-- `cleanURL`: the cleaned URL and a nil error, or the empty string and the error of
`url.Parse`. -/
def cleanURL (rawURL : GoString) : GoString × Option UrlError :=
  let decodedURL := fullyDecode (trimInput rawURL)
  match Parse decodedURL with
  | .error err => ([], some err)
  | .ok parsedURL =>
    let parsedURL := rebuild parsedURL
    match unwrapRedirect parsedURL.String with
    | some extracted => (extracted, none)
    | none => (parsedURL.String, none)

/-- The alphabet of `generateCode`. -/
def letters : GoString := str "abcdefghijklmnopqrstuvwxyzABCDEFGHIJKLMNOPQRSTUVWXYZ0123456789"

/-- `rand.Intn(n)` on the `i`-th draw of a random source `src`: some value in `[0, n)`. -/
def Intn (src : Nat → Nat) (i n : Nat) : Nat := src i % n

/-- `generateCode`: `n` bytes, the `i`-th one picked from `letters` by the `i`-th draw. -/
def generateCode (src : Nat → Nat) (n : Nat) : GoString :=
  (List.range n).map fun i => letters.getD (Intn src i letters.length) 0

/-- A row of the `links` table (the `id` column is never read). -/
structure Link where
  code : GoString
  url : GoString
  created_at : Nat
  deriving DecidableEq, Repr

/-- The `links` table, in insertion order. -/
abbrev Table := List Link

/-- The `INSERT INTO links` of `shortenHandler`: fails on the `UNIQUE` constraint of
`code`, otherwise adds the row. -/
def insertLink (db : Table) (code url : GoString) (now : Nat) : Option Table :=
  if db.any (fun l => l.code = code) then none else some (db ++ [⟨code, url, now⟩])

/-- The `SELECT url FROM links WHERE code = ?` of `redirectHandler`, scanned into a
string: the url of the first matching row, or no row. -/
def selectURL (db : Table) (code : GoString) : Option GoString :=
  (db.find? fun l => l.code = code).map Link.url

/-- What a handler does with the response: the body it prints, the error it reports,
or the URL it hands to `http.Redirect` with status 302. -/
inductive Response
  | ok (body : GoString)
  | badRequest
  | internalServerError
  | notFound
  | found (url : GoString)
  deriving DecidableEq, Repr

/-- `shortenHandler`, given the `url` form value, the random source, the clock and the
short domain: the new table and the response. -/
def shortenHandler (db : Table) (rawURL : GoString) (src : Nat → Nat) (now : Nat)
    (domain : GoString) : Table × Response :=
  if rawURL = [] then (db, .badRequest)
  else
    match cleanURL rawURL with
    | (_, some _) => (db, .badRequest)
    | (cleanedURL, none) =>
      let code := generateCode src 6
      match insertLink db code cleanedURL now with
      | none => (db, .internalServerError)
      | some db' => (db', .ok (domain ++ [47] ++ code))

/-- `strings.TrimPrefix(s, "/")`. -/
def trimSlashPrefix (s : GoString) : GoString :=
  match s with
  | 47 :: t => t
  | _ => s

/-- `redirectHandler`, given the request path. -/
def redirectHandler (db : Table) (path : GoString) : Response :=
  let code := trimSlashPrefix path
  if code = [] then .notFound
  else
    match selectURL db code with
    | none => .notFound
    | some urlStr => .found urlStr

/-! ## The specification, in its own words -/

/-- The words of the specification for the second trimming step: strip a single layer
of enclosing `<`/`>` delimiters, that is at most one leading `<` and at most one
trailing `>`. -/
def specStripOneLayer (s : GoString) : GoString :=
  let s := if s.head? = some 60 then s.drop 1 else s
  if s.getLast? = some 62 then s.dropLast else s

/-- The parameters of a query as written: its non-empty `&`-separated pieces, each cut at
its first `=` into name and value. -/
def queryPieces (q : GoString) : List (GoString × GoString) :=
  ((splitAmp q).filter fun seg => decide (seg ≠ [])).map fun seg => Cut seg 61

/-- What remains of one written parameter: nothing when it holds a semicolon, when its
name or its value does not percent-decode, or when its decoded name is a tracking
parameter; its decoded name and value else. -/
def keptPiece (p : GoString × GoString) : Option (GoString × GoString) :=
  if 59 ∈ p.1 ∨ 59 ∈ p.2 then none
  else
    match QueryUnescape p.1, QueryUnescape p.2 with
    | .ok k, .ok v => if k ∈ trackingParams then none else some (k, v)
    | _, _ => none

/-! ## Auxiliary definitions for the statements and proofs -/

/-- The bytes that `QueryEscape` writes. -/
def IsQuerySafe (b : Nat) : Prop :=
  (97 ≤ b ∧ b ≤ 122) ∨ (65 ≤ b ∧ b ≤ 90) ∨ (48 ≤ b ∧ b ≤ 57) ∨
    b = 45 ∨ b = 95 ∨ b = 46 ∨ b = 126 ∨ b = 43 ∨ b = 37

/-- The query string of a URL in string form: what follows the first `?`, without the
fragment that starts at the first `#`. -/
def queryOf (s : GoString) : GoString := (Cut (Cut s 35).1 63).2

/-- The parameters of a `Values` in the order `Encode` writes them: by sorted key, the
values of each key as stored. -/
def Values.pairs (v : Values) : List (GoString × GoString) :=
  (sortKeys (v.map Prod.fst)).flatMap fun k => (Values.lookup v k).map fun x => (k, x)

/-- One step of the buffer of `Encode`: a `&` unless the buffer is empty, then the segment. -/
def writeSegment (buf seg : GoString) : GoString :=
  (if buf ≠ [] then buf ++ [38] else buf) ++ seg

/-- What `Encode` writes for one parameter: `key=value`, both escaped. -/
def encodePair (kv : GoString × GoString) : GoString :=
  QueryEscape kv.1 ++ [61] ++ QueryEscape kv.2

/-- The string holds neither a `?` nor a `#`. -/
def NoQF (s : GoString) : Prop := ∀ c ∈ s, c ≠ 63 ∧ c ≠ 35

/-- The bytes a scheme is made of: letters, digits, `+`, `-`, `.`. -/
def IsSchemeByte (c : Nat) : Prop :=
  (97 ≤ c ∧ c ≤ 122) ∨ (65 ≤ c ∧ c ≤ 90) ∨ (48 ≤ c ∧ c ≤ 57) ∨ c = 43 ∨ c = 45 ∨ c = 46

/-- The front of the redirect pattern, up to the `?`, followed by `tail`. -/
def redirectHead (tail : Re) : Re :=
  .seq (.lit (str "http")) <| .seq (.opt (.lit (str "s"))) <| .seq (.lit (str "://")) <|
  .seq (.opt (.cap 1 (.lit (str "www.")))) <| .seq (.cap 2 (.alt (.lit (str "l")) (.lit (str "out")))) <|
  .seq (.lit (str ".google.com/url?")) tail

/-- The end of the redirect pattern: `.*?url=([^&]+)`. -/
def redirectTail : Re :=
  .seq .lazyStarAny <| .seq (.lit (str "url=")) <| .cap 3 (.plusNot 38)

/-- The groups the front of the redirect pattern sets on one of the four hosts. -/
def hostCaps (host : GoString) : Caps :=
  if HasPrefix host (str "www.") then
    [(2, (host.drop 4).takeWhile (· ≠ 46)), (1, str "www.")]
  else [(2, host.takeWhile (· ≠ 46))]

/-- The schemes of a redirect URL. -/
def redirectSchemes : List GoString := [str "http", str "https"]

/-- The hosts of a redirect URL. -/
def redirectHosts : List GoString :=
  [str "l.google.com", str "out.google.com", str "www.l.google.com", str "www.out.google.com"]

/-! # Theorems -/

/-! ## Percent-decoding and the decode loop -/

theorem unescape_nil (mode : Encoding) : unescape [] mode = .ok [] := by
  simp [unescape]

theorem decodeMeasure_cons (c : Nat) (s : GoString) :
    decodeMeasure (c :: s) = decodeMeasure s + 1 + (if c = 43 then 1 else 0) := by
  unfold decodeMeasure plusCount
  by_cases h : c = 43
  · subst h; simp; omega
  · simp [h, List.count_cons]; omega

/-- A successful query-mode pass never increases the measure, and strictly decreases it
when it changes the string. -/
theorem unescape_measure (n : Nat) : ∀ s : GoString, s.length ≤ n → ∀ t,
    unescape s encodeQueryComponent = .ok t →
    decodeMeasure t ≤ decodeMeasure s ∧ (t ≠ s → decodeMeasure t < decodeMeasure s) := by
  induction n with
  | zero =>
    intro s hs t ht
    have : s = [] := List.length_eq_zero.mp (Nat.le_zero.mp hs)
    subst this
    simp [unescape] at ht
    subst ht
    simp
  | succ n ih =>
    intro s hs t ht
    match s, hs, ht with
    | [], _, ht =>
      simp [unescape] at ht
      subst ht
      simp
    | c :: rest, hs, ht =>
      unfold unescape at ht
      split at ht
      · -- a percent escape
        match rest, hs, ht with
        | [], _, ht => simp at ht
        | [_], _, ht => simp at ht
        | a :: b :: rest2, hs, ht =>
          simp only at ht
          split at ht
          · simp at ht
          · split at ht
            · simp at ht
            · split at ht
              · simp at ht
              · split at ht
                · rename_i t' ht'
                  injection ht with ht
                  subst ht
                  have h1 := (ih rest2 (by simp at hs; omega) t' ht').1
                  simp only [decodeMeasure_cons] at *
                  constructor
                  · split <;> split <;> split <;> split <;> omega
                  · intro _
                    split <;> split <;> split <;> split <;> omega
                · simp at ht
      · split at ht
        · -- a plus sign
          rename_i hc
          subst hc
          split at ht
          · rename_i t' ht'
            injection ht with ht
            subst ht
            have h1 := (ih rest (by simp at hs; omega) t' ht').1
            simp only [decodeMeasure_cons]
            simp
            omega
          · simp at ht
        · rename_i hc
          split at ht
          · simp at ht
          · split at ht
            · rename_i t' ht'
              injection ht with ht
              subst ht
              have h1 := ih rest (by simp at hs; omega) t' ht'
              simp only [decodeMeasure_cons] at *
              constructor
              · omega
              · intro hne
                have : t' ≠ rest := fun h => hne (by rw [h])
                have := h1.2 this
                omega
            · simp at ht

theorem fullyDecodeLoop_enough (n : Nat) : ∀ s : GoString, decodeMeasure s < n →
    ∃ r, fullyDecodeLoop n s = some r := by
  induction n with
  | zero => intro s h; omega
  | succ n ih =>
    intro s h
    unfold fullyDecodeLoop
    cases hq : QueryUnescape s with
    | error e => exact ⟨s, rfl⟩
    | ok temp =>
      simp only
      by_cases he : temp = s
      · exact ⟨s, by simp [he]⟩
      · simp only [he, if_false]
        have := (unescape_measure s.length s (le_refl _) temp hq).2 he
        exact ih temp (by omega)

theorem fullyDecodeLoop_mono (n : Nat) : ∀ (s r : GoString) (m : Nat),
    fullyDecodeLoop n s = some r → n ≤ m → fullyDecodeLoop m s = some r := by
  induction n with
  | zero => intro s r m h; simp [fullyDecodeLoop] at h
  | succ n ih =>
    intro s r m h hm
    obtain ⟨m', rfl⟩ : ∃ m', m = m' + 1 := ⟨m - 1, by omega⟩
    unfold fullyDecodeLoop at h ⊢
    cases hq : QueryUnescape s with
    | error e => simpa [hq] using h
    | ok temp =>
      simp only [hq] at h ⊢
      by_cases he : temp = s
      · simpa [he] using h
      · simp only [he, if_false] at h ⊢
        exact ih temp r m' h (by omega)

/-- The result of the loop is a string on which one more pass fails or changes nothing. -/
theorem fullyDecodeLoop_fixed (n : Nat) : ∀ (s r : GoString),
    fullyDecodeLoop n s = some r →
    (∃ e, QueryUnescape r = .error e) ∨ QueryUnescape r = .ok r := by
  induction n with
  | zero => intro s r h; simp [fullyDecodeLoop] at h
  | succ n ih =>
    intro s r h
    unfold fullyDecodeLoop at h
    cases hq : QueryUnescape s with
    | error e =>
      simp only [hq] at h
      injection h with h
      subst h
      exact Or.inl ⟨e, hq⟩
    | ok temp =>
      simp only [hq] at h
      by_cases he : temp = s
      · simp only [he, if_true] at h
        injection h with h
        subst h
        right
        rw [hq, he]
      · simp only [he, if_false] at h
        exact ih temp r h

theorem fullyDecode_eq (s r : GoString) (n : Nat) (h : fullyDecodeLoop n s = some r) :
    fullyDecode s = r := by
  unfold fullyDecode
  obtain ⟨r', hr'⟩ := fullyDecodeLoop_enough (decodeMeasure s + 1) s (by omega)
  rw [hr']
  simp only [Option.getD_some]
  rcases Nat.le_total n (decodeMeasure s + 1) with hle | hle
  · have := fullyDecodeLoop_mono n s r _ h hle
    rw [hr'] at this
    exact Option.some.inj this
  · have := fullyDecodeLoop_mono _ s r' n hr' hle
    rw [h] at this
    exact (Option.some.inj this).symm

/-- C9: `fullyDecode` terminates on every input. Every successful pass that changes the
string strictly decreases `decodeMeasure` (length plus number of `+`), so the loop
breaks within `decodeMeasure s + 1` passes, with the same result for any larger number
of passes, and it breaks at a string on which one more pass fails or changes
nothing. -/
theorem fullyDecode_terminates (s : GoString) :
    (∀ t, QueryUnescape s = .ok t → t ≠ s → decodeMeasure t < decodeMeasure s) ∧
    ∃ r, fullyDecodeLoop (decodeMeasure s + 1) s = some r ∧
      (∀ n, decodeMeasure s + 1 ≤ n → fullyDecodeLoop n s = some r) ∧
      fullyDecode s = r ∧
      ((∃ e, QueryUnescape r = .error e) ∨ QueryUnescape r = .ok r) := by
  refine ⟨fun t ht hne => (unescape_measure s.length s (le_refl _) t ht).2 hne, ?_⟩
  obtain ⟨r, hr⟩ := fullyDecodeLoop_enough (decodeMeasure s + 1) s (by omega)
  exact ⟨r, hr, fun n hn => fullyDecodeLoop_mono _ s r n hr hn, fullyDecode_eq s r _ hr,
    fullyDecodeLoop_fixed _ s r hr⟩

/-- C7: for every length and every random source, `generateCode` returns exactly `n`
bytes, each one of the 62 distinct characters `a-z`, `A-Z`, `0-9` of `letters`; so does
the 6-character code of the create path. -/
theorem generateCode_alphanumeric (src : Nat → Nat) (n : Nat) :
    (generateCode src n).length = n ∧
    (∀ c ∈ generateCode src n, c ∈ letters ∧
      ((97 ≤ c ∧ c ≤ 122) ∨ (65 ≤ c ∧ c ≤ 90) ∨ (48 ≤ c ∧ c ≤ 57))) ∧
    letters.length = 62 ∧ letters.Nodup ∧
    (∀ c, c ∈ letters ↔ ((97 ≤ c ∧ c ≤ 122) ∨ (65 ≤ c ∧ c ≤ 90) ∨ (48 ≤ c ∧ c ≤ 57))) ∧
    (generateCode src 6).length = 6 := by
  have hlen : letters.length = 62 := by decide
  have hmem : ∀ c, c ∈ letters ↔
      ((97 ≤ c ∧ c ≤ 122) ∨ (65 ≤ c ∧ c ≤ 90) ∨ (48 ≤ c ∧ c ≤ 57)) := by
    intro c
    constructor
    · intro h
      have hall : ∀ x ∈ letters, (97 ≤ x ∧ x ≤ 122) ∨ (65 ≤ x ∧ x ≤ 90) ∨ (48 ≤ x ∧ x ≤ 57) := by
        decide
      exact hall c h
    · intro h
      have hall : ∀ x, x < 123 →
          ((97 ≤ x ∧ x ≤ 122) ∨ (65 ≤ x ∧ x ≤ 90) ∨ (48 ≤ x ∧ x ≤ 57)) → x ∈ letters := by
        decide
      exact hall c (by omega) h
  have hgen : ∀ c ∈ generateCode src n, c ∈ letters := by
    intro c hc
    unfold generateCode at hc
    rw [List.mem_map] at hc
    obtain ⟨i, _, rfl⟩ := hc
    have hlt : Intn src i letters.length < letters.length := by
      unfold Intn
      exact Nat.mod_lt _ (by rw [hlen]; decide)
    rw [List.getD_eq_getElem _ _ hlt]
    exact List.getElem_mem _
  refine ⟨by simp [generateCode], fun c hc => ⟨hgen c hc, (hmem c).1 (hgen c hc)⟩, hlen,
    by decide, hmem, by simp [generateCode]⟩

/-- C6: create/resolve round trip on the `links` table. When the code `c` drawn by
`generateCode 6` is not yet in the table, the insert of the create path succeeds and
adds the row `(c, u, now)`, after which the lookup of the resolve path finds `u` and
`redirectHandler` redirects to it; a code that is in no row is reported not found; and
`shortenHandler` on a non-empty input that cleans to `u` performs exactly that insert. -/
theorem create_resolve_roundtrip (db : Table) (u : GoString) (src : Nat → Nat) (now : Nat)
    (hfresh : ∀ l ∈ db, l.code ≠ generateCode src 6) :
    (insertLink db (generateCode src 6) u now = some (db ++ [⟨generateCode src 6, u, now⟩]) ∧
      selectURL (db ++ [⟨generateCode src 6, u, now⟩]) (generateCode src 6) = some u ∧
      redirectHandler (db ++ [⟨generateCode src 6, u, now⟩]) (47 :: generateCode src 6) =
        .found u) ∧
    (∀ code, (∀ l ∈ db, l.code ≠ code) →
      selectURL db code = none ∧ redirectHandler db (47 :: code) = .notFound) ∧
    (∀ rawURL domain, rawURL ≠ [] → cleanURL rawURL = (u, none) →
      shortenHandler db rawURL src now domain =
        (db ++ [⟨generateCode src 6, u, now⟩], .ok (domain ++ [47] ++ generateCode src 6))) := by
  have hnone : ∀ code, (∀ l ∈ db, l.code ≠ code) →
      db.find? (fun l => decide (l.code = code)) = none := by
    intro code h
    rw [List.find?_eq_none]
    intro l hl
    simpa using h l hl
  have hsel : selectURL (db ++ [⟨generateCode src 6, u, now⟩]) (generateCode src 6) = some u := by
    unfold selectURL
    rw [List.find?_append, hnone _ hfresh]
    simp
  have hins : insertLink db (generateCode src 6) u now =
      some (db ++ [⟨generateCode src 6, u, now⟩]) := by
    unfold insertLink
    have : db.any (fun l => decide (l.code = generateCode src 6)) = false := by
      rw [List.any_eq_false]
      intro l hl
      simpa using hfresh l hl
    simp [this]
  refine ⟨⟨hins, hsel, ?_⟩, ?_, ?_⟩
  rotate_left 2
  · intro rawURL domain hraw hclean
    unfold shortenHandler
    rw [if_neg hraw, hclean]
    simp only [hins]
  · unfold redirectHandler trimSlashPrefix
    have hne : generateCode src 6 ≠ [] := by
      intro h
      have := congrArg List.length h
      simp [generateCode] at this
    simp only [hne, if_false, hsel]
  · intro code h
    have hs : selectURL db code = none := by
      unfold selectURL
      rw [hnone code h]
      rfl
    refine ⟨hs, ?_⟩
    unfold redirectHandler trimSlashPrefix
    simp only [hs]
    split <;> rfl

theorem create_resolve_roundtrip_witness :
    (insertLink [⟨str "zzzzzz", str "http://b.example.com", 1⟩] (generateCode (fun _ => 0) 6)
        (str "http://a.example.com") 2 =
        some ([⟨str "zzzzzz", str "http://b.example.com", 1⟩] ++
          [⟨generateCode (fun _ => 0) 6, str "http://a.example.com", 2⟩]) ∧
      selectURL ([⟨str "zzzzzz", str "http://b.example.com", 1⟩] ++
          [⟨generateCode (fun _ => 0) 6, str "http://a.example.com", 2⟩])
          (generateCode (fun _ => 0) 6) = some (str "http://a.example.com") ∧
      redirectHandler ([⟨str "zzzzzz", str "http://b.example.com", 1⟩] ++
          [⟨generateCode (fun _ => 0) 6, str "http://a.example.com", 2⟩])
          (47 :: generateCode (fun _ => 0) 6) = .found (str "http://a.example.com")) ∧
    (∀ code, (∀ l ∈ [(⟨str "zzzzzz", str "http://b.example.com", 1⟩ : Link)], l.code ≠ code) →
      selectURL [⟨str "zzzzzz", str "http://b.example.com", 1⟩] code = none ∧
      redirectHandler [⟨str "zzzzzz", str "http://b.example.com", 1⟩] (47 :: code) =
        .notFound) ∧
    (∀ rawURL domain, rawURL ≠ [] → cleanURL rawURL = (str "http://a.example.com", none) →
      shortenHandler [⟨str "zzzzzz", str "http://b.example.com", 1⟩] rawURL (fun _ => 0) 2
          domain =
        ([⟨str "zzzzzz", str "http://b.example.com", 1⟩] ++
          [⟨generateCode (fun _ => 0) 6, str "http://a.example.com", 2⟩],
          .ok (domain ++ [47] ++ generateCode (fun _ => 0) 6))) :=
  create_resolve_roundtrip [⟨str "zzzzzz", str "http://b.example.com", 1⟩]
    (str "http://a.example.com") (fun _ => 0) 2 (by decide)

/-- C5: `cleanURL` fails exactly when `url.Parse` fails on the trimmed and fully decoded
input. It then returns the empty string with that error; on every other input it
returns a nil error with either the string form of the rebuilt URL or the decoded
redirect destination. -/
theorem cleanURL_error_iff (rawURL : GoString) :
    ((cleanURL rawURL).2 ≠ none ↔
      ∃ e, Parse (fullyDecode (trimInput rawURL)) = .error e) ∧
    (∀ e, Parse (fullyDecode (trimInput rawURL)) = .error e →
      cleanURL rawURL = ([], some e)) ∧
    (∀ u, Parse (fullyDecode (trimInput rawURL)) = .ok u →
      (cleanURL rawURL).2 = none ∧
      ((cleanURL rawURL).1 = (rebuild u).String ∨
        unwrapRedirect (rebuild u).String = some (cleanURL rawURL).1)) := by
  cases hp : Parse (fullyDecode (trimInput rawURL)) with
  | error e => simp [cleanURL, hp]
  | ok u =>
    cases hu : unwrapRedirect (rebuild u).String with
    | none => simp [cleanURL, hp, hu]
    | some d => simp [cleanURL, hp, hu]

/-! ## Trimming -/

theorem asciiSpace_lt {c : Nat} (h : asciiSpace c = true) : c < 0x80 := by
  simp [asciiSpace] at h
  omega

theorem trimSpaceStop_spaces (ws r : GoString) (hws : ∀ c ∈ ws, asciiSpace c = true) :
    trimSpaceStop (ws ++ r) = trimSpaceStop r := by
  induction ws with
  | nil => rfl
  | cons w ws ih =>
    have hw := hws w (List.mem_cons_self _ _)
    have hlt := asciiSpace_lt hw
    rw [List.cons_append, trimSpaceStop]
    rw [if_neg (by omega), if_pos hw]
    exact ih fun c hc => hws c (List.mem_cons_of_mem _ hc)

theorem trimSpaceStop_stop (c : Nat) (r : GoString) (hc : c < 0x80)
    (hs : asciiSpace c = false) : trimSpaceStop (c :: r) = (c :: r).reverse := by
  rw [trimSpaceStop, if_neg (by omega), if_neg (by simp [hs])]

/-- On a string whose first and last bytes are ASCII and not spaces, surrounded by
ASCII spaces only, `TrimSpace` removes exactly the surrounding spaces. -/
theorem TrimSpace_ascii (ws1 ws2 s : GoString)
    (h1 : ∀ c ∈ ws1, asciiSpace c = true) (h2 : ∀ c ∈ ws2, asciiSpace c = true)
    (hhead : ∃ c, s.head? = some c ∧ c < 0x80 ∧ asciiSpace c = false)
    (hlast : ∃ c, s.getLast? = some c ∧ c < 0x80 ∧ asciiSpace c = false) :
    TrimSpace (ws1 ++ s ++ ws2) = s := by
  induction ws1 with
  | nil =>
    obtain ⟨c, hc, hlt, hsp⟩ := hhead
    obtain ⟨d, hd, hdlt, hdsp⟩ := hlast
    match s, hc with
    | x :: s', hc =>
      simp only [List.head?_cons, Option.some.injEq] at hc
      subst hc
      rw [List.nil_append, List.cons_append, TrimSpace, if_neg (by omega), if_neg (by simp [hsp])]
      rw [← List.cons_append, List.reverse_append]
      rw [trimSpaceStop_spaces _ _ (by simpa using h2)]
      obtain ⟨init, hinit⟩ : ∃ init, x :: s' = init ++ [d] := by
        have hne : x :: s' ≠ [] := by simp
        refine ⟨(x :: s').dropLast, ?_⟩
        have := List.dropLast_append_getLast hne
        rw [List.getLast?_eq_getLast _ hne] at hd
        simp only [Option.some.injEq] at hd
        rw [hd] at this
        exact this.symm
      rw [hinit, List.reverse_append, List.reverse_singleton, List.singleton_append,
        trimSpaceStop_stop d _ hdlt hdsp]
      simp
  | cons w ws ih =>
    have hw := h1 w (List.mem_cons_self _ _)
    have hlt := asciiSpace_lt hw
    rw [List.cons_append, List.cons_append, TrimSpace, if_neg (by omega), if_pos hw]
    exact ih fun c hc => h1 c (List.mem_cons_of_mem _ hc)

theorem rdropWhile_append_rtakeWhile (p : Nat → Bool) (l : List Nat) :
    l.rdropWhile p ++ l.rtakeWhile p = l := by
  unfold List.rdropWhile List.rtakeWhile
  rw [← List.reverse_append, List.takeWhile_append_dropWhile, List.reverse_reverse]

/-- `Trim` takes a run of cutset bytes off each end and leaves a string that neither
starts nor ends with a cutset byte. -/
theorem Trim_spec (s cutset : GoString) :
    (∃ pre post, s = pre ++ Trim s cutset ++ post ∧
      (∀ c ∈ pre, c ∈ cutset) ∧ (∀ c ∈ post, c ∈ cutset)) ∧
    (∀ c, (Trim s cutset).head? = some c → c ∉ cutset) ∧
    (∀ c, (Trim s cutset).getLast? = some c → c ∉ cutset) := by
  refine ⟨⟨(s.rdropWhile fun c => decide (c ∈ cutset)).takeWhile fun c => decide (c ∈ cutset),
    s.rtakeWhile fun c => decide (c ∈ cutset), ?_, ?_, ?_⟩, ?_, ?_⟩
  · unfold Trim
    rw [List.takeWhile_append_dropWhile, rdropWhile_append_rtakeWhile]
  · intro c hc
    simpa using List.mem_takeWhile_imp hc
  · intro c hc
    simpa using List.mem_rtakeWhile_imp hc
  · intro c hc
    unfold Trim at hc
    have := List.head?_dropWhile_not (fun c => decide (c ∈ cutset))
      (s.rdropWhile fun c => decide (c ∈ cutset))
    rw [hc] at this
    simpa using this
  · intro c hc
    unfold Trim at hc
    have hne : (List.dropWhile (fun c => decide (c ∈ cutset))
        (s.rdropWhile fun c => decide (c ∈ cutset))) ≠ [] := by
      intro h
      rw [h] at hc
      simp at hc
    have hsuf := List.dropWhile_suffix (fun c => decide (c ∈ cutset))
      (l := s.rdropWhile fun c => decide (c ∈ cutset))
    obtain ⟨t, ht⟩ := hsuf
    have hne2 : s.rdropWhile (fun c => decide (c ∈ cutset)) ≠ [] := by
      intro h
      exact hne (by rw [h]; rfl)
    have hlast := List.rdropWhile_last_not (fun c => decide (c ∈ cutset)) s hne2
    have heq : (s.rdropWhile (fun c => decide (c ∈ cutset))).getLast hne2 = c := by
      have h3 : (s.rdropWhile (fun c => decide (c ∈ cutset))).getLast? = some c := by
        rw [← ht, List.getLast?_append_of_ne_nil _ hne]
        exact hc
      rw [List.getLast?_eq_getLast _ hne2] at h3
      exact Option.some.inj h3
    rw [heq] at hlast
    simpa using hlast

/-- C8, as stated, fails: on `<<http://example.com/a>>` the code removes both leading
`<` and both trailing `>`, so the string that is decoded and parsed has no bracket
left, where a single layer would leave `<http://example.com/a>`. -/
theorem trimInput_one_layer_counterexample :
    trimInput (str "<<http://example.com/a>>") = str "http://example.com/a" ∧
    specStripOneLayer (TrimSpace (str "<<http://example.com/a>>")) =
      str "<http://example.com/a>" ∧
    trimInput (str "<<http://example.com/a>>") ≠
      specStripOneLayer (TrimSpace (str "<<http://example.com/a>>")) ∧
    cleanURL (str "<<http://example.com/a>>") = (str "http://example.com/a", none) := by
  decide

/-- C8, amended: `cleanURL` first strips leading and trailing whitespace (for ASCII
text surrounded by ASCII spaces: exactly those spaces), then strips every leading and
every trailing `<` or `>`, however many there are: the string that is decoded and
parsed is the whitespace-trimmed input without a run of brackets at each end, it
neither starts nor ends with a bracket, and the result of `cleanURL` depends on the
input through that string only. -/
theorem trimInput_strips_all_brackets (rawURL : GoString) :
    (∃ pre post, TrimSpace rawURL = pre ++ trimInput rawURL ++ post ∧
      (∀ c ∈ pre, c = 60 ∨ c = 62) ∧ (∀ c ∈ post, c = 60 ∨ c = 62)) ∧
    (∀ c, (trimInput rawURL).head? = some c → c ≠ 60 ∧ c ≠ 62) ∧
    (∀ c, (trimInput rawURL).getLast? = some c → c ≠ 60 ∧ c ≠ 62) ∧
    (∀ other, trimInput other = trimInput rawURL → cleanURL other = cleanURL rawURL) ∧
    (∀ ws1 ws2 s, (∀ c ∈ ws1, asciiSpace c = true) → (∀ c ∈ ws2, asciiSpace c = true) →
      (∃ c, s.head? = some c ∧ c < 0x80 ∧ asciiSpace c = false) →
      (∃ c, s.getLast? = some c ∧ c < 0x80 ∧ asciiSpace c = false) →
      rawURL = ws1 ++ s ++ ws2 → TrimSpace rawURL = s) ∧
    cleanURL (str "  <http://example.com/a?utm_source=x&id=5>  ") =
      (str "http://example.com/a?id=5", none) := by
  obtain ⟨⟨pre, post, h, hpre, hpost⟩, hhead, hlast⟩ := Trim_spec (TrimSpace rawURL) [60, 62]
  refine ⟨⟨pre, post, h, ?_, ?_⟩, ?_, ?_, ?_, ?_, by decide⟩
  · intro c hc
    simpa using hpre c hc
  · intro c hc
    simpa using hpost c hc
  · intro c hc
    have := hhead c hc
    simpa using this
  · intro c hc
    have := hlast c hc
    simpa using this
  · intro other ho
    simp only [cleanURL, ho]
  · intro ws1 ws2 s h1 h2 hh hl he
    rw [he]
    exact TrimSpace_ascii ws1 ws2 s h1 h2 hh hl

/-! ## Escaping and unescaping are inverse -/

theorem upperhex_spec : ∀ n, n < 16 → ishex (upperhex n) = true ∧ unhex (upperhex n) = n ∧
    upperhex n ≠ 37 ∧ upperhex n ≠ 43 ∧
    ((48 ≤ upperhex n ∧ upperhex n ≤ 57) ∨ (65 ≤ upperhex n ∧ upperhex n ≤ 70)) := by
  decide

/-- A byte is left alone by query escaping only if it is alphanumeric or one of
`-`, `_`, `.`, `~`. -/
theorem shouldEscape_query_false {c : Nat} (h : shouldEscape c encodeQueryComponent = false) :
    (97 ≤ c ∧ c ≤ 122) ∨ (65 ≤ c ∧ c ≤ 90) ∨ (48 ≤ c ∧ c ≤ 57) ∨
      c = 45 ∨ c = 95 ∨ c = 46 ∨ c = 126 := by
  unfold shouldEscape at h
  split at h
  · omega
  · split at h
    · rename_i h2
      simp at h2
    · split at h
      · rename_i h3
        simp at h3
        omega
      · split at h
        · simp at h
        · split at h
          · rename_i h5
            simp at h5
          · simp at h

theorem escape_cons (c : Nat) (s : GoString) (mode : Encoding) :
    escape (c :: s) mode =
      (if c = 32 ∧ mode = encodeQueryComponent then [43]
       else if shouldEscape c mode then [37, upperhex (c / 16 % 16), upperhex (c % 16)]
       else [c]) ++ escape s mode := by
  simp [escape]

theorem escape_nil (mode : Encoding) : escape [] mode = [] := by
  simp [escape]

theorem escape_append (a b : GoString) (mode : Encoding) :
    escape (a ++ b) mode = escape a mode ++ escape b mode := by
  simp [escape]

theorem QueryEscape_safe (s : GoString) : ∀ b ∈ QueryEscape s, IsQuerySafe b := by
  unfold QueryEscape
  induction s with
  | nil => simp [escape]
  | cons c s ih =>
    intro b hb
    rw [escape_cons, List.mem_append] at hb
    rcases hb with hb | hb
    · split at hb
      · simp at hb
        subst hb
        simp [IsQuerySafe]
      · split at hb
        · have h1 := upperhex_spec (c / 16 % 16) (Nat.mod_lt _ (by decide))
          have h2 := upperhex_spec (c % 16) (Nat.mod_lt _ (by decide))
          simp at hb
          unfold IsQuerySafe
          rcases hb with hb | hb | hb
          · omega
          · rw [hb]; omega
          · rw [hb]; omega
        · rename_i hs
          simp at hb
          subst hb
          have := shouldEscape_query_false (by simpa using hs)
          unfold IsQuerySafe
          omega
    · exact ih b hb

theorem QueryEscape_isBytes (s : GoString) : IsBytes (QueryEscape s) := by
  intro b hb
  have := QueryEscape_safe s b hb
  unfold IsQuerySafe at this
  omega

theorem unescape_plus (rest : GoString) (mode : Encoding) :
    unescape (43 :: rest) mode =
      match unescape rest mode with
      | .ok t => .ok ((if mode = encodeQueryComponent then 32 else 43) :: t)
      | .error e => .error e := by
  conv_lhs => unfold unescape
  simp

theorem unescape_percent (a b : Nat) (rest2 : GoString) (mode : Encoding) :
    unescape (37 :: a :: b :: rest2) mode =
      if ¬ (ishex a ∧ ishex b) then .error .escapeError
      else if mode = encodeHost ∧ unhex a < 8 ∧ ¬ (a = 50 ∧ b = 53) then .error .escapeError
      else if mode = encodeZone ∧ ¬ (a = 50 ∧ b = 53) ∧ unhex a * 16 + unhex b ≠ 32 ∧
          shouldEscape (unhex a * 16 + unhex b) encodeHost then .error .escapeError
      else
        match unescape rest2 mode with
        | .ok t => .ok ((unhex a * 16 + unhex b) :: t)
        | .error e => .error e := by
  conv_lhs => unfold unescape
  simp

theorem unescape_other (c : Nat) (rest : GoString) (mode : Encoding) (h1 : c ≠ 37)
    (h2 : c ≠ 43) :
    unescape (c :: rest) mode =
      if (mode = encodeHost ∨ mode = encodeZone) ∧ c < 128 ∧ shouldEscape c encodeHost then
        .error .invalidHostError
      else
        match unescape rest mode with
        | .ok t => .ok (c :: t)
        | .error e => .error e := by
  conv_lhs => unfold unescape
  simp [h1, h2]

/-- `QueryUnescape` undoes `QueryEscape` on every byte string. -/
theorem QueryUnescape_QueryEscape (s : GoString) (hs : IsBytes s) :
    QueryUnescape (QueryEscape s) = .ok s := by
  unfold QueryUnescape QueryEscape
  induction s with
  | nil => simp [escape, unescape]
  | cons c s ih =>
    have hc : c < 256 := hs c (List.mem_cons_self _ _)
    have ih := ih fun b hb => hs b (List.mem_cons_of_mem _ hb)
    rw [escape_cons]
    split
    · rename_i h
      rw [List.singleton_append, unescape_plus, ih]
      simp [h.1]
    · split
      · have h1 := upperhex_spec (c / 16 % 16) (Nat.mod_lt _ (by decide))
        have h2 := upperhex_spec (c % 16) (Nat.mod_lt _ (by decide))
        show unescape (37 :: upperhex (c / 16 % 16) :: upperhex (c % 16) ::
          escape s encodeQueryComponent) encodeQueryComponent = _
        rw [unescape_percent]
        simp only [h1.1, h2.1, and_self, not_true_eq_false, if_false, false_and, reduceCtorEq]
        rw [ih]
        simp only [h1.2.1, h2.2.1]
        congr 2
        omega
      · rename_i h1 h2
        have hsafe := shouldEscape_query_false (by simpa using h2)
        rw [List.singleton_append, unescape_other _ _ _ (by omega) (by omega),
          if_neg (by simp), ih]

/-- One more level of escaping does not change what `fullyDecode` returns. -/
theorem fullyDecode_QueryEscape (s : GoString) (hs : IsBytes s) :
    fullyDecode (QueryEscape s) = fullyDecode s := by
  by_cases he : QueryEscape s = s
  · rw [he]
  · obtain ⟨r, hr⟩ := fullyDecodeLoop_enough (decodeMeasure s + 1) s (by omega)
    rw [fullyDecode_eq s r _ hr]
    apply fullyDecode_eq (QueryEscape s) r (decodeMeasure s + 1 + 1)
    rw [fullyDecodeLoop, QueryUnescape_QueryEscape s hs]
    simp only
    rw [if_neg (fun h => he h.symm)]
    exact hr

theorem Trim_eq_self (s cutset : GoString) (h : ∀ c ∈ s, c ∉ cutset) : Trim s cutset = s := by
  unfold Trim
  have h1 : s.rdropWhile (fun c => decide (c ∈ cutset)) = s := by
    rw [List.rdropWhile_eq_self_iff]
    intro hl
    simpa using h _ (List.getLast_mem hl)
  rw [h1, List.dropWhile_eq_self_iff]
  intro hl
  simpa using h _ (List.get_mem s 0 hl)

/-- Trimming leaves an escaped string alone: it holds no whitespace and no bracket. -/
theorem trimInput_QueryEscape (s : GoString) : trimInput (QueryEscape s) = QueryEscape s := by
  have hsafe := QueryEscape_safe s
  unfold trimInput
  have h1 : TrimSpace (QueryEscape s) = QueryEscape s := by
    by_cases hn : QueryEscape s = []
    · rw [hn]; rfl
    · have := TrimSpace_ascii [] [] (QueryEscape s) (by simp) (by simp) ?_ ?_
      · simpa using this
      · obtain ⟨c, t, hct⟩ := List.exists_cons_of_ne_nil hn
        refine ⟨c, by rw [hct]; rfl, ?_⟩
        have := hsafe c (by rw [hct]; exact List.mem_cons_self _ _)
        unfold IsQuerySafe at this
        refine ⟨by omega, ?_⟩
        simp [asciiSpace]
        omega
      · refine ⟨(QueryEscape s).getLast hn, List.getLast?_eq_getLast _ hn, ?_⟩
        have := hsafe _ (List.getLast_mem hn)
        unfold IsQuerySafe at this
        refine ⟨by omega, ?_⟩
        simp [asciiSpace]
        omega
  rw [h1]
  apply Trim_eq_self
  intro c hc
  have := hsafe c hc
  unfold IsQuerySafe at this
  simp
  omega

/-- C4: decode-loop convergence. For every string `u`, `cleanURL` on `u` percent-encoded
twice and on `u` percent-encoded three times returns the same outcome (the same string
and the same error) as on `u` percent-encoded once. -/
theorem cleanURL_multiply_encoded (u : GoString) :
    cleanURL (QueryEscape (QueryEscape u)) = cleanURL (QueryEscape u) ∧
    cleanURL (QueryEscape (QueryEscape (QueryEscape u))) = cleanURL (QueryEscape u) := by
  have h2 : fullyDecode (QueryEscape (QueryEscape u)) = fullyDecode (QueryEscape u) :=
    fullyDecode_QueryEscape _ (QueryEscape_isBytes u)
  have h3 : fullyDecode (QueryEscape (QueryEscape (QueryEscape u))) =
      fullyDecode (QueryEscape u) := by
    rw [fullyDecode_QueryEscape _ (QueryEscape_isBytes _), h2]
  constructor
  · simp only [cleanURL, trimInput_QueryEscape, h2]
  · simp only [cleanURL, trimInput_QueryEscape, h3]

/-- C10 fails on the code: the pattern is searched anywhere in the rebuilt URL, so a URL
of another host whose path holds the redirector prefix is unwrapped too. The input
parses with host `evil.example`, its rebuilt string form is the input itself, and
`cleanURL` returns `zzz`. -/
theorem unwrap_on_other_host :
    (Parse (fullyDecode (trimInput (str "http://evil.example/https://l.google.com/url?url=zzz")))).map
        (fun u => (u.Scheme, u.Host, u.Path, (rebuild u).String)) =
      .ok (str "http", str "evil.example", str "/https://l.google.com/url",
        str "http://evil.example/https://l.google.com/url?url=zzz") ∧
    cleanURL (str "http://evil.example/https://l.google.com/url?url=zzz") =
      (str "zzz", none) := by
  decide

/-! ## `Values.Encode` and `parseQuery` -/

theorem encodeKey_eq (k : GoString) (vs : List GoString) (buf : GoString) :
    encodeKey (QueryEscape k) vs buf =
      (vs.map fun x => encodePair (k, x)).foldl writeSegment buf := by
  unfold encodeKey
  rw [List.foldl_map]
  congr 1
  funext b x
  simp [writeSegment, encodePair, List.append_assoc]

theorem foldl_flatMap_writeSegment {α : Type} (f : α → List GoString) (l : List α)
    (buf : GoString) :
    l.foldl (fun buf k => (f k).foldl writeSegment buf) buf =
      (l.flatMap f).foldl writeSegment buf := by
  induction l generalizing buf with
  | nil => rfl
  | cons a l ih => simp [List.flatMap_cons, List.foldl_append, ih]

theorem Encode_eq (v : Values) :
    Values.Encode v = ((Values.pairs v).map encodePair).foldl writeSegment [] := by
  unfold Values.Encode Values.pairs
  split
  · rename_i h
    have : v = [] := List.length_eq_zero.mp h
    subst this
    simp [sortKeys]
  · simp only [encodeKey_eq]
    rw [foldl_flatMap_writeSegment, List.map_flatMap]
    simp [List.map_map, Function.comp_def]

theorem foldl_writeSegment_ne_nil (L : List GoString) (buf : GoString) (hb : buf ≠ []) :
    L.foldl writeSegment buf = buf ++ L.flatMap fun s => 38 :: s := by
  induction L generalizing buf with
  | nil => simp
  | cons s L ih =>
    rw [List.foldl_cons]
    have h1 : writeSegment buf s = buf ++ 38 :: s := by
      simp [writeSegment, hb]
    rw [h1, ih _ (by simp [hb])]
    simp [List.flatMap_cons]

theorem splitAmp_noamp (s : GoString) (h : ∀ c ∈ s, c ≠ 38) : splitAmp s = [s] := by
  induction s with
  | nil => rfl
  | cons c s ih =>
    have hc := h c (List.mem_cons_self _ _)
    rw [splitAmp, if_neg hc, ih fun x hx => h x (List.mem_cons_of_mem _ hx)]

theorem splitAmp_append (s t : GoString) (h : ∀ c ∈ s, c ≠ 38) :
    splitAmp (s ++ 38 :: t) = s :: splitAmp t := by
  induction s with
  | nil => simp [splitAmp]
  | cons c s ih =>
    have hc := h c (List.mem_cons_self _ _)
    rw [List.cons_append, splitAmp, if_neg hc, ih fun x hx => h x (List.mem_cons_of_mem _ hx)]

theorem splitAmp_join (s : GoString) (L : List GoString) (hs : ∀ c ∈ s, c ≠ 38)
    (hL : ∀ t ∈ L, ∀ c ∈ t, c ≠ 38) :
    splitAmp (s ++ L.flatMap fun t => 38 :: t) = s :: L := by
  induction L generalizing s with
  | nil => simpa using splitAmp_noamp s hs
  | cons t L ih =>
    rw [List.flatMap_cons, List.cons_append, splitAmp_append s _ hs,
      ih t (hL t (List.mem_cons_self _ _)) fun t' ht' => hL t' (List.mem_cons_of_mem _ ht')]

theorem IsQuerySafe_ne {b : Nat} (h : IsQuerySafe b) :
    b ≠ 38 ∧ b ≠ 61 ∧ b ≠ 59 ∧ b ≠ 35 ∧ b ≠ 63 := by
  unfold IsQuerySafe at h
  omega

theorem encodePair_ne_nil (kv : GoString × GoString) : encodePair kv ≠ [] := by
  simp [encodePair]

theorem encodePair_bytes (kv : GoString × GoString) :
    ∀ c ∈ encodePair kv, IsQuerySafe c ∨ c = 61 := by
  intro c hc
  simp only [encodePair, List.mem_append, List.mem_singleton] at hc
  rcases hc with (hc | hc) | hc
  · exact Or.inl (QueryEscape_safe _ c hc)
  · exact Or.inr hc
  · exact Or.inl (QueryEscape_safe _ c hc)

theorem Cut_append_sep (a b : GoString) (sep : Nat) (h : ∀ c ∈ a, c ≠ sep) :
    Cut (a ++ sep :: b) sep = (a, b) := by
  unfold Cut
  have h1 : List.takeWhile (fun x => decide (x ≠ sep)) (a ++ sep :: b) = a := by
    rw [List.takeWhile_append_of_pos (by simpa using h)]
    simp
  have h2 : List.dropWhile (fun x => decide (x ≠ sep)) (a ++ sep :: b) = sep :: b := by
    rw [List.dropWhile_append_of_pos (by simpa using h)]
    simp
  rw [h1, h2]
  rfl

theorem Cut_no_sep (a : GoString) (sep : Nat) (h : ∀ c ∈ a, c ≠ sep) :
    Cut a sep = (a, []) := by
  unfold Cut
  have h1 : List.takeWhile (fun x => decide (x ≠ sep)) a = a := by
    rw [List.takeWhile_eq_self_iff]
    simpa using h
  have h2 : List.dropWhile (fun x => decide (x ≠ sep)) a = [] := by
    rw [List.dropWhile_eq_nil_iff]
    simpa using h
  rw [h1, h2]
  rfl

theorem parsePair_encodePair (kv : GoString × GoString) (hk : IsBytes kv.1)
    (hv : IsBytes kv.2) : parsePair (encodePair kv) = some kv := by
  have hsafe := encodePair_bytes kv
  unfold parsePair
  have h1 : Contains (encodePair kv) 59 = false := by
    simp only [Contains, decide_eq_false_iff_not]
    intro hmem
    rcases hsafe 59 hmem with h | h
    · exact (IsQuerySafe_ne h).2.2.1 rfl
    · omega
  have hcut : Cut (encodePair kv) 61 = (QueryEscape kv.1, QueryEscape kv.2) := by
    unfold encodePair
    rw [List.append_assoc, List.singleton_append]
    exact Cut_append_sep _ _ _ fun c hc => (IsQuerySafe_ne (QueryEscape_safe _ c hc)).2.1
  simp only [h1, Bool.false_eq_true, if_false, encodePair_ne_nil, hcut,
    QueryUnescape_QueryEscape _ hk, QueryUnescape_QueryEscape _ hv]

/-- Reading back what `Encode` wrote gives the parameters in the order they were
written. -/
theorem queryPairs_Encode (v : Values)
    (hb : ∀ kv ∈ Values.pairs v, IsBytes kv.1 ∧ IsBytes kv.2) :
    queryPairs (Values.Encode v) = Values.pairs v := by
  rw [Encode_eq]
  unfold queryPairs
  generalize Values.pairs v = P at hb
  match P, hb with
  | [], _ => simp [splitAmp, parsePair, Contains]
  | kv :: P, hb =>
    rw [List.map_cons, List.foldl_cons]
    have h0 : writeSegment [] (encodePair kv) = encodePair kv := by simp [writeSegment]
    rw [h0, foldl_writeSegment_ne_nil _ _ (encodePair_ne_nil kv)]
    have hno : ∀ kv : GoString × GoString, ∀ c ∈ encodePair kv, c ≠ 38 := by
      intro kv c hc
      rcases encodePair_bytes kv c hc with h | h
      · exact (IsQuerySafe_ne h).1
      · omega
    rw [splitAmp_join _ _ (hno kv) (by
      intro t ht
      rw [List.mem_map] at ht
      obtain ⟨kv', _, rfl⟩ := ht
      exact hno kv')]
    rw [← List.map_cons, List.filterMap_map]
    have : ∀ l : List (GoString × GoString), (∀ kv ∈ l, IsBytes kv.1 ∧ IsBytes kv.2) →
        List.filterMap (parsePair ∘ encodePair) l = l := by
      intro l hl
      induction l with
      | nil => rfl
      | cons a l ih =>
        have ha := hl a (List.mem_cons_self _ _)
        rw [List.filterMap_cons]
        simp only [Function.comp, parsePair_encodePair a ha.1 ha.2]
        rw [ih fun kv hkv => hl kv (List.mem_cons_of_mem _ hkv)]
    exact this _ hb

theorem foldl_writeSegment_mem (L : List GoString) (buf : GoString) (c : Nat)
    (hc : c ∈ L.foldl writeSegment buf) : c ∈ buf ∨ c = 38 ∨ ∃ t ∈ L, c ∈ t := by
  induction L generalizing buf with
  | nil => exact Or.inl hc
  | cons s L ih =>
    rw [List.foldl_cons] at hc
    rcases ih _ hc with h | h | ⟨t, ht, hct⟩
    · unfold writeSegment at h
      rw [List.mem_append] at h
      rcases h with h | h
      · split at h
        · rw [List.mem_append, List.mem_singleton] at h
          rcases h with h | h
          · exact Or.inl h
          · exact Or.inr (Or.inl h)
        · exact Or.inl h
      · exact Or.inr (Or.inr ⟨s, List.mem_cons_self _ _, h⟩)
    · exact Or.inr (Or.inl h)
    · exact Or.inr (Or.inr ⟨t, List.mem_cons_of_mem _ ht, hct⟩)

/-- Every byte `Encode` writes is query-safe, `&` or `=`. -/
theorem Encode_bytes (v : Values) :
    ∀ c ∈ Values.Encode v, IsQuerySafe c ∨ c = 61 ∨ c = 38 := by
  rw [Encode_eq]
  intro c hc
  rcases foldl_writeSegment_mem _ _ c hc with h | h | ⟨t, ht, hct⟩
  · simp at h
  · exact Or.inr (Or.inr h)
  · rw [List.mem_map] at ht
    obtain ⟨kv, _, rfl⟩ := ht
    rcases encodePair_bytes kv c hct with h | h
    · exact Or.inl h
    · exact Or.inr (Or.inl h)

/-! ## The map behind `Values` -/

theorem lookup_add (m : Values) (k x k' : GoString) :
    Values.lookup (Values.add m k x) k' =
      if k' = k then Values.lookup m k ++ [x] else Values.lookup m k' := by
  induction m with
  | nil =>
    simp only [Values.add, Values.lookup]
    by_cases h : k' = k
    · simp [h]
    · have hsym : ¬ k = k' := fun e => h e.symm
      simp [h, hsym]
  | cons a m ih =>
    obtain ⟨a, vs⟩ := a
    simp only [Values.add]
    by_cases ha : a = k
    · subst ha
      simp only [if_true, Values.lookup]
      by_cases h : k' = a
      · subst h; simp
      · have hsym : ¬ a = k' := fun e => h e.symm
        simp [h, hsym]
    · simp only [ha, if_false, Values.lookup]
      by_cases h : k' = k
      · subst h
        simp [ha, ih]
      · by_cases h2 : a = k'
        · subst h2; simp [h]
        · simp [h, h2, ih]

theorem keys_add (m : Values) (k x : GoString) :
    (Values.add m k x).map Prod.fst =
      if k ∈ m.map Prod.fst then m.map Prod.fst else m.map Prod.fst ++ [k] := by
  induction m with
  | nil => simp [Values.add]
  | cons a m ih =>
    obtain ⟨a, vs⟩ := a
    simp only [Values.add]
    by_cases ha : a = k
    · subst ha; simp
    · simp only [ha, if_false, List.map_cons, ih, List.mem_cons]
      by_cases hm : k ∈ m.map Prod.fst
      · simp [hm]
      · have hsym : ¬ k = a := fun e => ha e.symm
        simp [hm, hsym]

theorem lookup_foldl_add (P : List (GoString × GoString)) (m : Values) (k : GoString) :
    Values.lookup (P.foldl (fun m kv => Values.add m kv.1 kv.2) m) k =
      Values.lookup m k ++ (P.filter fun kv => decide (kv.1 = k)).map Prod.snd := by
  induction P generalizing m with
  | nil => simp
  | cons p P ih =>
    rw [List.foldl_cons, ih, lookup_add, List.filter_cons]
    by_cases h : k = p.1
    · subst h; simp
    · have hsym : ¬ p.1 = k := fun e => h e.symm
      simp [h, hsym]

theorem keys_foldl_add (P : List (GoString × GoString)) (m : Values) :
    (∀ k, k ∈ (P.foldl (fun m kv => Values.add m kv.1 kv.2) m).map Prod.fst ↔
      k ∈ m.map Prod.fst ∨ k ∈ P.map Prod.fst) ∧
    ((m.map Prod.fst).Nodup →
      ((P.foldl (fun m kv => Values.add m kv.1 kv.2) m).map Prod.fst).Nodup) := by
  induction P generalizing m with
  | nil => simp
  | cons p P ih =>
    rw [List.foldl_cons]
    obtain ⟨ih1, ih2⟩ := ih (Values.add m p.1 p.2)
    constructor
    · intro k
      rw [ih1, keys_add]
      by_cases hm : p.1 ∈ m.map Prod.fst
      · simp only [hm, if_true, List.map_cons, List.mem_cons]
        constructor
        · rintro (h | h)
          · exact Or.inl h
          · exact Or.inr (Or.inr h)
        · rintro (h | h | h)
          · exact Or.inl h
          · subst h; exact Or.inl hm
          · exact Or.inr h
      · simp only [hm, if_false, List.map_cons, List.mem_cons, List.mem_append,
          List.mem_singleton]
        tauto
    · intro hnd
      apply ih2
      rw [keys_add]
      by_cases hm : p.1 ∈ m.map Prod.fst
      · simpa [hm] using hnd
      · simp only [hm, if_false]
        rw [List.nodup_append]
        refine ⟨hnd, List.nodup_singleton _, ?_⟩
        intro a ha hb
        rw [List.mem_singleton] at hb
        subst hb
        exact hm ha

theorem lookup_Del (m : Values) (d k : GoString) :
    Values.lookup (Values.Del m d) k = if k = d then [] else Values.lookup m k := by
  induction m with
  | nil => simp [Values.Del, Values.lookup]
  | cons a m ih =>
    obtain ⟨a, vs⟩ := a
    unfold Values.Del at ih ⊢
    rw [List.filter_cons]
    by_cases ha : a = d
    · subst ha
      simp only [ne_eq, not_true_eq_false, decide_False, Bool.false_eq_true, if_false, ih,
        Values.lookup]
      by_cases h : k = a
      · simp [h]
      · have hsym : ¬ a = k := fun e => h e.symm
        simp [h, hsym]
    · simp only [ne_eq, ha, not_false_eq_true, decide_True, if_true, Values.lookup, ih]
      by_cases h2 : a = k
      · subst h2; simp [ha]
      · simp [h2]

theorem keys_Del (m : Values) (d : GoString) :
    (Values.Del m d).map Prod.fst = (m.map Prod.fst).filter fun k => decide (k ≠ d) := by
  unfold Values.Del
  rw [List.filter_map]
  rfl

theorem lookup_foldl_Del (T : List GoString) (m : Values) (k : GoString) :
    Values.lookup (T.foldl Values.Del m) k = if k ∈ T then [] else Values.lookup m k := by
  induction T generalizing m with
  | nil => simp
  | cons d T ih =>
    rw [List.foldl_cons, ih, lookup_Del]
    by_cases h1 : k ∈ T
    · simp [h1]
    · by_cases h2 : k = d
      · simp [h2]
      · simp [h1, h2]

theorem keys_foldl_Del (T : List GoString) (m : Values) :
    (T.foldl Values.Del m).map Prod.fst =
      (m.map Prod.fst).filter fun k => decide (k ∉ T) := by
  induction T generalizing m with
  | nil => simp
  | cons d T ih =>
    rw [List.foldl_cons, ih, keys_Del, List.filter_filter]
    congr 1
    funext k
    simp only [List.mem_cons, not_or, ne_eq]
    by_cases h1 : k ∈ T <;> by_cases h2 : k = d <;> simp [h1, h2]

/-! ## The order of keys -/

theorem strLe_refl (a : GoString) : strLe a a = true := by
  induction a with
  | nil => rfl
  | cons x a ih => simp [strLe, ih]

theorem strLe_total (a b : GoString) : strLe a b = true ∨ strLe b a = true := by
  induction a generalizing b with
  | nil => exact Or.inl rfl
  | cons x a ih =>
    cases b with
    | nil => exact Or.inr rfl
    | cons y b =>
      simp only [strLe]
      by_cases h1 : x < y
      · simp [h1]
      · by_cases h2 : y < x
        · simp [h2]
        · simp only [h1, h2, if_false]
          exact ih b

theorem strLe_trans (a b c : GoString) (h1 : strLe a b = true) (h2 : strLe b c = true) :
    strLe a c = true := by
  induction a generalizing b c with
  | nil => rfl
  | cons x a ih =>
    cases b with
    | nil => simp [strLe] at h1
    | cons y b =>
      cases c with
      | nil => simp [strLe] at h2
      | cons z c =>
        simp only [strLe] at h1 h2 ⊢
        by_cases hxy : x < y
        · by_cases hyz : y < z
          · simp [show x < z by omega]
          · by_cases hzy : z < y
            · simp [hyz, hzy] at h2
            · simp [show x < z by omega]
        · by_cases hyx : y < x
          · simp [hxy, hyx] at h1
          · simp only [hxy, hyx, if_false] at h1
            have hxy' : x = y := by omega
            subst hxy'
            by_cases hyz : x < z
            · simp [hyz]
            · by_cases hzy : z < x
              · simp [hyz, hzy] at h2
              · simp only [hyz, hzy, if_false] at h2 ⊢
                exact ih b c h1 h2

instance : IsTotal GoString (fun a b => strLe a b = true) := ⟨strLe_total⟩

instance : IsTrans GoString (fun a b => strLe a b = true) := ⟨strLe_trans⟩

theorem sortKeys_perm (keys : List GoString) : (sortKeys keys).Perm keys :=
  List.perm_insertionSort _ keys

theorem sortKeys_sorted (keys : List GoString) :
    (sortKeys keys).Pairwise fun a b => strLe a b = true :=
  List.sorted_insertionSort _ keys

/-! ## What `Encode` writes after the tracking parameters are deleted -/

theorem flatMap_ite_nodup {β : Type} (l : List GoString) (k : GoString) (B : GoString → List β)
    (hnd : l.Nodup) :
    (l.flatMap fun k' => if k' = k then B k' else []) = if k ∈ l then B k else [] := by
  induction l with
  | nil => simp
  | cons a l ih =>
    rw [List.nodup_cons] at hnd
    rw [List.flatMap_cons, ih hnd.2]
    by_cases h : a = k
    · subst h
      simp [hnd.1]
    · have hsym : ¬ k = a := fun e => h e.symm
      simp [h, hsym]

theorem filter_fst_map_snd (P : List (GoString × GoString)) (k : GoString) :
    ((P.filter fun kv => decide (kv.1 = k)).map Prod.snd).map (fun x => (k, x)) =
      P.filter fun kv => decide (kv.1 = k) := by
  induction P with
  | nil => rfl
  | cons p P ih =>
    rw [List.filter_cons]
    by_cases h : p.1 = k
    · simp only [h, decide_True, if_true, List.map_cons, ih]
      congr 1
      rw [← h]
    · simp only [h, decide_False, Bool.false_eq_true, if_false, ih]

/-- The parameters of the map built from the pairs `P`, after the names `T` are deleted:
sorted by name, and for each name the pairs of `P` with that name, in their order, when
the name is not deleted. -/
theorem pairs_foldl (P : List (GoString × GoString)) (T : List GoString) :
    let O := Values.pairs (T.foldl Values.Del (P.foldl (fun m kv => Values.add m kv.1 kv.2) []))
    let I := P.filter fun kv => decide (kv.1 ∉ T)
    O.Pairwise (fun a b => strLe a.1 b.1 = true) ∧
    (∀ k, (O.filter fun kv => decide (kv.1 = k)) = I.filter fun kv => decide (kv.1 = k)) ∧
    O.Perm I ∧ (∀ kv ∈ O, kv.1 ∉ T) := by
  intro O I
  have hfilter : ∀ k, (O.filter fun kv => decide (kv.1 = k)) =
      I.filter fun kv => decide (kv.1 = k) := by
    intro k
    show (Values.pairs _).filter _ = _
    unfold Values.pairs
    rw [List.filter_flatMap]
    have hblock : ∀ k' : GoString,
        (List.filter (fun kv : GoString × GoString => decide (kv.1 = k))
          (List.map (fun x => (k', x))
            (Values.lookup (T.foldl Values.Del
              (P.foldl (fun m kv => Values.add m kv.1 kv.2) [])) k'))) =
        if k' = k then (fun k' => if k' ∈ T then []
          else P.filter fun kv => decide (kv.1 = k')) k' else [] := by
      intro k'
      rw [lookup_foldl_Del, lookup_foldl_add]
      by_cases hk : k' = k
      · subst hk
        simp only [if_true]
        by_cases hT : k' ∈ T
        · simp [hT]
        · simp only [hT, if_false, Values.lookup, List.nil_append, filter_fst_map_snd]
          rw [List.filter_filter]
          simp
      · simp only [hk, if_false]
        rw [List.filter_map]
        simp [Function.comp_def, hk]
    simp only [hblock]
    rw [flatMap_ite_nodup _ _ _ ((sortKeys_perm _).nodup_iff.mpr (by
      rw [keys_foldl_Del]
      exact ((keys_foldl_add P []).2 (by simp)).filter _))]
    have hmem : k ∈ sortKeys ((T.foldl Values.Del
        (P.foldl (fun m kv => Values.add m kv.1 kv.2) [])).map Prod.fst) ↔
        k ∉ T ∧ k ∈ P.map Prod.fst := by
      rw [(sortKeys_perm _).mem_iff, keys_foldl_Del, List.mem_filter, (keys_foldl_add P []).1]
      simp
      tauto
    show _ = List.filter _ (List.filter _ P)
    rw [List.filter_filter]
    by_cases hT : k ∈ T
    · simp only [hT, if_true, ite_self]
      symm
      rw [List.filter_eq_nil_iff]
      intro kv _
      simp only [Bool.and_eq_true, decide_eq_true_eq, not_and]
      intro h1 h2
      exact h2 (h1 ▸ hT)
    · by_cases hP : k ∈ P.map Prod.fst
      · rw [if_pos (hmem.mpr ⟨hT, hP⟩)]
        simp only [hT, if_false]
        apply List.filter_congr
        intro kv _
        by_cases h : kv.1 = k
        · simp [h, hT]
        · simp [h]
      · rw [if_neg (fun h => hP (hmem.mp h).2)]
        symm
        rw [List.filter_eq_nil_iff]
        intro kv hkv
        simp only [Bool.and_eq_true, decide_eq_true_eq, not_and]
        intro h1 _
        apply hP
        rw [← h1]
        exact List.mem_map_of_mem _ hkv
  have hT : ∀ kv ∈ O, kv.1 ∉ T := by
    intro kv hkv
    have : kv ∈ O.filter fun kv' => decide (kv'.1 = kv.1) := by
      rw [List.mem_filter]
      exact ⟨hkv, by simp⟩
    rw [hfilter] at this
    have := (List.mem_filter.mp (List.mem_filter.mp this).1).2
    simpa using this
  refine ⟨?_, hfilter, ?_, hT⟩
  · show (Values.pairs _).Pairwise _
    unfold Values.pairs
    rw [List.pairwise_flatMap]
    constructor
    · intro k _
      rw [List.pairwise_map]
      exact List.pairwise_of_forall (fun _ _ => strLe_refl k)
    · refine (sortKeys_sorted _).imp ?_
      intro a b hab x hx y hy
      rw [List.mem_map] at hx hy
      obtain ⟨_, _, rfl⟩ := hx
      obtain ⟨_, _, rfl⟩ := hy
      exact hab
  · rw [List.perm_iff_count]
    intro kv
    have h1 := fun L => @List.count_filter (GoString × GoString)
      (@instBEqOfDecidableEq (GoString × GoString) instDecidableEqProd)
      (@instLawfulBEq (GoString × GoString) instDecidableEqProd)
      (fun kv' => decide (kv'.1 = kv.1)) kv L (by simp)
    rw [← h1 O, ← h1 I, hfilter]

/-! ## The string form of a URL -/

theorem NoQF_nil : NoQF [] := by
  intro c hc
  simp at hc

theorem NoQF_append {a b : GoString} : NoQF (a ++ b) ↔ NoQF a ∧ NoQF b := by
  unfold NoQF
  simp only [List.mem_append]
  constructor
  · intro h
    exact ⟨fun c hc => h c (Or.inl hc), fun c hc => h c (Or.inr hc)⟩
  · rintro ⟨h1, h2⟩ c (hc | hc)
    · exact h1 c hc
    · exact h2 c hc

theorem NoQF_cons {x : Nat} {a : GoString} : NoQF (x :: a) ↔ (x ≠ 63 ∧ x ≠ 35) ∧ NoQF a := by
  unfold NoQF
  simp

theorem shouldEscape_63 (mode : Encoding) (h : mode ≠ encodeFragment) :
    shouldEscape 63 mode = true := by
  cases mode <;> first | rfl | exact absurd rfl h

theorem shouldEscape_35 (mode : Encoding) : shouldEscape 35 mode = true := by
  cases mode <;> rfl

theorem NoQF_escape (s : GoString) (mode : Encoding) (h : mode ≠ encodeFragment) :
    NoQF (escape s mode) := by
  induction s with
  | nil => simpa [escape] using NoQF_nil
  | cons c s ih =>
    rw [escape_cons, NoQF_append]
    refine ⟨?_, ih⟩
    split
    · simp [NoQF]
    · split
      · have h1 := upperhex_spec (c / 16 % 16) (Nat.mod_lt _ (by decide))
        have h2 := upperhex_spec (c % 16) (Nat.mod_lt _ (by decide))
        simp only [NoQF_cons, NoQF_nil, and_true]
        omega
      · rename_i hs
        simp only [NoQF_cons, NoQF_nil, and_true]
        constructor
        · intro hc
          subst hc
          exact hs (shouldEscape_63 mode h)
        · intro hc
          subst hc
          exact hs (shouldEscape_35 mode)

theorem NoQF_validEncoded (s : GoString) (mode : Encoding) (h : mode ≠ encodeFragment)
    (hv : validEncoded s mode = true) : NoQF s := by
  intro c hc
  unfold validEncoded at hv
  rw [List.all_eq_true] at hv
  have := hv c hc
  constructor
  · intro h63
    subst h63
    simp [shouldEscape_63 mode h] at this
  · intro h35
    subst h35
    simp [shouldEscape_35 mode] at this

theorem NoQF_EscapedPath (u : URL) : NoQF u.EscapedPath := by
  unfold URL.EscapedPath
  split
  · rename_i h
    exact NoQF_validEncoded _ _ (by decide) h.2.1
  · split
    · simp [NoQF]
    · exact NoQF_escape _ _ (by decide)

theorem NoQF_Userinfo (ui : Userinfo) : NoQF ui.String := by
  unfold Userinfo.String
  rw [NoQF_append]
  refine ⟨NoQF_escape _ _ (by decide), ?_⟩
  split
  · rw [NoQF_cons]
    exact ⟨by decide, NoQF_escape _ _ (by decide)⟩
  · exact NoQF_nil

theorem NoQF_ite (c : Prop) [Decidable c] (a b : GoString) (ha : NoQF a) (hb : NoQF b) :
    NoQF (if c then a else b) := by
  split
  · exact ha
  · exact hb

theorem NoQF_stringHead (u : URL) (hs : NoQF u.Scheme) (ho : NoQF u.Opaque) :
    NoQF u.stringHead := by
  have hp := NoQF_EscapedPath u
  have hh : NoQF (escape u.Host encodeHost) := NoQF_escape _ _ (by decide)
  have h58 : NoQF [58] := by simp [NoQF]
  have h47 : NoQF [47] := by simp [NoQF]
  have h4747 : NoQF [47, 47] := by simp [NoQF]
  have h4647 : NoQF [46, 47] := by simp [NoQF]
  have h64 : NoQF [64] := by simp [NoQF]
  unfold URL.stringHead
  lift_lets
  extract_lets b0 c1 c2 b1 path b2 b3
  have hb0 : NoQF b0 := NoQF_ite _ _ _ (NoQF_append.mpr ⟨hs, h58⟩) NoQF_nil
  have hc1 : NoQF c1 := NoQF_ite _ _ _ (NoQF_append.mpr ⟨hb0, h4747⟩) hb0
  have hc2 : NoQF c2 := by
    show NoQF (match u.User with
      | some ui => c1 ++ ui.String ++ [64]
      | none => c1)
    cases u.User with
    | none => exact hc1
    | some ui => exact NoQF_append.mpr ⟨NoQF_append.mpr ⟨hc1, NoQF_Userinfo ui⟩, h64⟩
  have hb1 : NoQF b1 :=
    NoQF_ite _ _ _ (NoQF_ite _ _ _ hb0 (NoQF_ite _ _ _ (NoQF_append.mpr ⟨hc2, hh⟩) hc2)) hb0
  have hb2 : NoQF b2 := NoQF_ite _ _ _ (NoQF_append.mpr ⟨hb1, h47⟩) hb1
  have hb3 : NoQF b3 := NoQF_ite _ _ _ (NoQF_append.mpr ⟨hb2, h4647⟩) hb2
  exact NoQF_ite _ _ _ (NoQF_append.mpr ⟨hb0, ho⟩) (NoQF_append.mpr ⟨hb3, hp⟩)

/-- The query of the string form of a URL is its `RawQuery`, when scheme, opaque part
and query hold no `?` or `#` out of place. -/
theorem queryOf_String (u : URL) (hs : NoQF u.Scheme) (ho : NoQF u.Opaque)
    (hq : ∀ c ∈ u.RawQuery, c ≠ 35) : queryOf u.String = u.RawQuery := by
  have hhead := NoQF_stringHead u hs ho
  unfold queryOf URL.String
  simp only []
  -- the text before the fragment
  have hcut : ∀ (body frag : GoString), (∀ c ∈ body, c ≠ 35) →
      (Cut (if u.Fragment ≠ [] then body ++ [35] ++ frag else body) 35).1 = body := by
    intro body frag hb
    split
    · rw [List.append_assoc, List.singleton_append, Cut_append_sep _ _ _ hb]
    · rw [Cut_no_sep _ _ hb]
  by_cases hQ : u.ForceQuery = true ∨ u.RawQuery ≠ []
  · rw [if_pos hQ, hcut _ _ (by
      intro c hc
      simp only [List.mem_append, List.mem_singleton] at hc
      rcases hc with (hc | hc) | hc
      · exact (hhead c hc).2
      · omega
      · exact hq c hc)]
    rw [List.append_assoc, List.singleton_append,
      Cut_append_sep _ _ _ fun c hc => (hhead c hc).1]
  · rw [if_neg hQ, hcut _ _ (fun c hc => (hhead c hc).2),
      Cut_no_sep _ _ fun c hc => (hhead c hc).1]
    simp only [not_or, ne_eq, not_not] at hQ
    exact hQ.2.symm

/-! ## What `Parse` stores -/

theorem setPath_fields (u v : URL) (p : GoString) (h : URL.setPath u p = .ok v) :
    v.Scheme = u.Scheme ∧ v.Opaque = u.Opaque ∧ v.RawQuery = u.RawQuery := by
  unfold URL.setPath at h
  split at h
  · simp at h
  · split at h <;> (injection h with h; subst h; simp)

theorem setFragment_fields (u v : URL) (p : GoString) (h : URL.setFragment u p = .ok v) :
    v.Scheme = u.Scheme ∧ v.Opaque = u.Opaque ∧ v.RawQuery = u.RawQuery := by
  unfold URL.setFragment at h
  split at h
  · simp at h
  · split at h <;> (injection h with h; subst h; simp)

theorem parseRest_fields (url v : URL) (rest : GoString) (h : parseRest url rest = .ok v) :
    v.Scheme = url.Scheme ∧ (v.Opaque = url.Opaque ∨ v.Opaque = rest) ∧
      v.RawQuery = url.RawQuery := by
  unfold parseRest at h
  split at h
  · injection h with h
    subst h
    simp
  · split at h
    · simp at h
    · split at h
      · simp only [] at h
        split at h
        · simp at h
        · have := setPath_fields _ _ _ h
          simp only [] at this
          exact ⟨this.1, Or.inl this.2.1, this.2.2⟩
      · split at h
        · have := setPath_fields _ _ _ h
          simp only [] at this
          exact ⟨this.1, Or.inl this.2.1, this.2.2⟩
        · have := setPath_fields _ _ _ h
          exact ⟨this.1, Or.inl this.2.1, this.2.2⟩

/-- What `getSchemeLoop` returns: no scheme and the whole input, or the scheme bytes
read so far and the rest after the colon. -/
theorem getSchemeLoop_spec (rem pre : GoString) (hpre : ∀ c ∈ pre, IsSchemeByte c)
    (scheme rest : GoString)
    (h : getSchemeLoop (pre ++ rem) pre.length rem = .ok (scheme, rest)) :
    (scheme = [] ∧ rest = pre ++ rem) ∨
    ((∀ c ∈ scheme, IsSchemeByte c) ∧ pre ++ rem = scheme ++ 58 :: rest) := by
  induction rem generalizing pre with
  | nil =>
    simp only [getSchemeLoop] at h
    injection h with h
    injection h with h1 h2
    exact Or.inl ⟨h1.symm, h2.symm⟩
  | cons c rem ih =>
    have hstep : getSchemeLoop (pre ++ c :: rem) (pre.length + 1) rem =
        getSchemeLoop ((pre ++ [c]) ++ rem) (pre ++ [c]).length rem := by
      simp
    have hnext : (∀ x ∈ pre ++ [c], IsSchemeByte x) →
        getSchemeLoop (pre ++ c :: rem) (pre.length + 1) rem = .ok (scheme, rest) →
        (scheme = [] ∧ rest = pre ++ c :: rem) ∨
          ((∀ c ∈ scheme, IsSchemeByte c) ∧ pre ++ c :: rem = scheme ++ 58 :: rest) := by
      intro hp h'
      rw [hstep] at h'
      have := ih (pre ++ [c]) hp h'
      simpa using this
    rw [getSchemeLoop] at h
    split at h
    · rename_i hc
      refine hnext ?_ h
      intro x hx
      rw [List.mem_append, List.mem_singleton] at hx
      rcases hx with hx | hx
      · exact hpre x hx
      · subst hx; unfold IsSchemeByte; omega
    · split at h
      · rename_i hc
        split at h
        · injection h with h
          injection h with h1 h2
          exact Or.inl ⟨h1.symm, h2.symm⟩
        · refine hnext ?_ h
          intro x hx
          rw [List.mem_append, List.mem_singleton] at hx
          rcases hx with hx | hx
          · exact hpre x hx
          · subst hx; unfold IsSchemeByte; omega
      · split at h
        · rename_i hc
          subst hc
          split at h
          · simp at h
          · injection h with h
            injection h with h1 h2
            right
            subst h1 h2
            simp only [List.take_left']
            exact ⟨hpre, trivial⟩
        · injection h with h
          injection h with h1 h2
          exact Or.inl ⟨h1.symm, h2.symm⟩

theorem getScheme_spec (x scheme rest : GoString) (h : getScheme x = .ok (scheme, rest)) :
    (scheme = [] ∧ rest = x) ∨ ((∀ c ∈ scheme, IsSchemeByte c) ∧ x = scheme ++ 58 :: rest) := by
  have := getSchemeLoop_spec x [] (by simp) scheme rest (by simpa [getScheme] using h)
  simpa using this

theorem Cut_snd_force (rest : GoString) (h : rest.getLast? = some 63 ∧ rest.count 63 = 1) :
    (Cut rest 63).2 = [] ∧ ∀ c ∈ rest.dropLast, c ≠ 63 := by
  obtain ⟨h1, h2⟩ := h
  have hne : rest ≠ [] := by
    intro h
    rw [h] at h1
    simp at h1
  have hsplit := List.dropLast_append_getLast hne
  rw [List.getLast?_eq_getLast _ hne] at h1
  injection h1 with h1
  rw [h1] at hsplit
  have hno : ∀ c ∈ rest.dropLast, c ≠ 63 := by
    intro c hc hc63
    subst hc63
    rw [← hsplit, List.count_append] at h2
    have : 0 < List.count 63 rest.dropLast := List.count_pos_iff.mpr hc
    simp at h2
    omega
  refine ⟨?_, hno⟩
  rw [← hsplit, Cut_append_sep _ _ _ hno]

/-- The fields `parse` fills in from the front of the input: the `RawQuery` is what
follows the first `?`, and neither scheme nor opaque part holds a `?`. -/
theorem parse_fields (x : GoString) (u : URL) (h : parse x = .ok u) :
    u.RawQuery = (Cut x 63).2 ∧ (∀ c ∈ u.Scheme, IsSchemeByte c) ∧
      (∀ c ∈ u.Opaque, c ≠ 63 ∧ c ∈ x) := by
  unfold parse at h
  split at h
  · simp at h
  · split at h
    · rename_i hx
      injection h with h
      subst h
      subst hx
      simp [Cut]
    · split at h
      · simp at h
      · rename_i scheme rest hg
        have hspec := getScheme_spec x scheme rest hg
        have hlower : ∀ c ∈ ToLower scheme, IsSchemeByte c := by
          intro c hc
          rcases hspec with ⟨hs, _⟩ | ⟨hs, _⟩
          · subst hs
            simp [ToLower] at hc
          · unfold ToLower at hc
            rw [List.mem_map] at hc
            obtain ⟨d, hd, rfl⟩ := hc
            have := hs d hd
            unfold IsSchemeByte at this ⊢
            split <;> omega
        have hcut : (Cut x 63).2 = (Cut rest 63).2 ∧ ∀ c ∈ rest, c ∈ x := by
          rcases hspec with ⟨_, hr⟩ | ⟨hs, hx⟩
          · subst hr
            exact ⟨rfl, fun c hc => hc⟩
          · constructor
            · unfold Cut
              rw [hx]
              have hno : ∀ c ∈ scheme ++ [58], (decide (c ≠ 63)) = true := by
                intro c hc
                rw [List.mem_append, List.mem_singleton] at hc
                rcases hc with hc | hc
                · have := hs c hc
                  unfold IsSchemeByte at this
                  simp
                  omega
                · simp [hc]
              have e : scheme ++ 58 :: rest = (scheme ++ [58]) ++ rest := by simp
              rw [e, List.dropWhile_append_of_pos hno]
            · intro c hc
              rw [hx]
              simp [hc]
        split at h
        · rename_i hforce
          have hf := Cut_snd_force rest hforce
          have := parseRest_fields _ _ _ h
          simp only [] at this
          refine ⟨by rw [this.2.2, hcut.1, hf.1], by rw [this.1]; exact hlower, ?_⟩
          intro c hc
          rcases this.2.1 with ho | ho
          · rw [ho] at hc
            simp at hc
          · rw [ho] at hc
            exact ⟨hf.2 c hc, hcut.2 c (List.dropLast_subset _ hc)⟩
        · have := parseRest_fields _ _ _ h
          simp only [] at this
          refine ⟨by rw [this.2.2, hcut.1], by rw [this.1]; exact hlower, ?_⟩
          intro c hc
          rcases this.2.1 with ho | ho
          · rw [ho] at hc
            simp at hc
          · rw [ho] at hc
            unfold Cut at hc
            simp only [] at hc
            have hmem := List.mem_takeWhile_imp hc
            exact ⟨by simpa using hmem,
              hcut.2 c ((List.takeWhile_sublist _).subset hc)⟩

theorem mem_Cut_fst (s : GoString) (sep c : Nat) (h : c ∈ (Cut s sep).1) : c ∈ s ∧ c ≠ sep := by
  unfold Cut at h
  exact ⟨(List.takeWhile_sublist _).subset h, by simpa using List.mem_takeWhile_imp h⟩

theorem mem_Cut_snd (s : GoString) (sep c : Nat) (h : c ∈ (Cut s sep).2) : c ∈ s := by
  unfold Cut at h
  exact (List.dropWhile_sublist _).subset (List.mem_of_mem_drop h)

/-- The fields `Parse` fills in: the `RawQuery` is the query of the input, and neither
scheme nor opaque part holds a `?` or a `#`. -/
theorem Parse_fields (s : GoString) (u : URL) (h : Parse s = .ok u) :
    u.RawQuery = queryOf s ∧ NoQF u.Scheme ∧ NoQF u.Opaque := by
  unfold Parse at h
  simp only [] at h
  split at h
  · simp at h
  · rename_i url hp
    have hf := parse_fields _ _ hp
    have key : url.RawQuery = queryOf s ∧ NoQF url.Scheme ∧ NoQF url.Opaque := by
      refine ⟨hf.1, ?_, ?_⟩
      · intro c hc
        have := hf.2.1 c hc
        unfold IsSchemeByte at this
        omega
      · intro c hc
        have := hf.2.2 c hc
        exact ⟨this.1, (mem_Cut_fst _ _ _ this.2).2⟩
    split at h
    · injection h with h
      subst h
      exact key
    · have := setFragment_fields _ _ _ h
      rw [this.1, this.2.1, this.2.2]
      exact key

/-! ## Byte strings stay byte strings -/

theorem trimLeftSpaceLoop_subset (n : Nat) (s : GoString) :
    ∀ c ∈ trimLeftSpaceLoop n s, c ∈ s := by
  induction n generalizing s with
  | zero => intro c hc; simpa [trimLeftSpaceLoop] using hc
  | succ n ih =>
    intro c hc
    unfold trimLeftSpaceLoop at hc
    split at hc
    · simp at hc
    · simp only [] at hc
      split at hc
      · exact List.mem_of_mem_drop (ih _ c hc)
      · exact hc

theorem TrimRightFuncSpace_subset (s : GoString) : ∀ c ∈ TrimRightFuncSpace s, c ∈ s := by
  intro c hc
  unfold TrimRightFuncSpace at hc
  split at hc
  · simp at hc
  · split at hc <;> exact List.mem_of_mem_take hc

theorem trimSpaceStop_subset (t : GoString) : ∀ c ∈ trimSpaceStop t, c ∈ t := by
  induction t with
  | nil => intro c hc; simp [trimSpaceStop] at hc
  | cons x t ih =>
    intro c hc
    unfold trimSpaceStop at hc
    split at hc
    · have := TrimRightFuncSpace_subset _ c hc
      exact List.mem_reverse.mp this
    · split at hc
      · exact List.mem_cons_of_mem _ (ih c hc)
      · exact List.mem_reverse.mp hc

theorem TrimSpace_subset (s : GoString) : ∀ c ∈ TrimSpace s, c ∈ s := by
  induction s with
  | nil => intro c hc; simp [TrimSpace] at hc
  | cons x s ih =>
    intro c hc
    unfold TrimSpace at hc
    split at hc
    · exact trimLeftSpaceLoop_subset _ _ c (TrimRightFuncSpace_subset _ c hc)
    · split at hc
      · exact List.mem_cons_of_mem _ (ih c hc)
      · have := trimSpaceStop_subset _ c hc
        exact List.mem_reverse.mp this

theorem trimInput_subset (s : GoString) : ∀ c ∈ trimInput s, c ∈ s := by
  intro c hc
  unfold trimInput Trim at hc
  have h1 := (List.dropWhile_sublist _).subset hc
  have h2 := (List.rdropWhile_prefix (fun c => decide (c ∈ [60, 62]))
    (l := TrimSpace s)).sublist.subset h1
  exact TrimSpace_subset s c h2

theorem unhex_lt (c : Nat) : unhex c < 16 := by
  unfold unhex
  split_ifs <;> omega

theorem unescape_isBytes (n : Nat) (mode : Encoding) : ∀ s : GoString, s.length ≤ n →
    IsBytes s → ∀ t, unescape s mode = .ok t → IsBytes t := by
  induction n with
  | zero =>
    intro s hs _ t ht
    have : s = [] := List.length_eq_zero.mp (Nat.le_zero.mp hs)
    subst this
    simp [unescape] at ht
    subst ht
    intro c hc
    simp at hc
  | succ n ih =>
    intro s hs hb t ht
    match s, hs, hb, ht with
    | [], _, _, ht =>
      simp [unescape] at ht
      subst ht
      intro c hc
      simp at hc
    | c :: rest, hs, hb, ht =>
      have hrest : IsBytes rest := fun x hx => hb x (List.mem_cons_of_mem _ hx)
      by_cases h37 : c = 37
      · subst h37
        match rest, hs, hrest, ht with
        | [], _, _, ht => simp [unescape] at ht
        | [_], _, _, ht => simp [unescape] at ht
        | a :: b :: rest2, hs, hrest, ht =>
          rw [unescape_percent] at ht
          split at ht
          · simp at ht
          · split at ht
            · simp at ht
            · split at ht
              · simp at ht
              · split at ht
                · rename_i t' ht'
                  injection ht with ht
                  subst ht
                  have := ih rest2 (by simp at hs; omega)
                    (fun x hx => hrest x (List.mem_cons_of_mem _ (List.mem_cons_of_mem _ hx)))
                    t' ht'
                  intro x hx
                  rw [List.mem_cons] at hx
                  rcases hx with hx | hx
                  · have h1 := unhex_lt a
                    have h2 := unhex_lt b
                    omega
                  · exact this x hx
                · simp at ht
      · by_cases h43 : c = 43
        · subst h43
          rw [unescape_plus] at ht
          split at ht
          · rename_i t' ht'
            injection ht with ht
            subst ht
            have := ih rest (by simp at hs; omega) hrest t' ht'
            intro x hx
            rw [List.mem_cons] at hx
            rcases hx with hx | hx
            · subst hx; split <;> omega
            · exact this x hx
          · simp at ht
        · rw [unescape_other _ _ _ h37 h43] at ht
          split at ht
          · simp at ht
          · split at ht
            · rename_i t' ht'
              injection ht with ht
              subst ht
              have := ih rest (by simp at hs; omega) hrest t' ht'
              intro x hx
              rw [List.mem_cons] at hx
              rcases hx with hx | hx
              · subst hx; exact hb _ (List.mem_cons_self _ _)
              · exact this x hx
            · simp at ht

theorem QueryUnescape_isBytes (s t : GoString) (hs : IsBytes s)
    (h : QueryUnescape s = .ok t) : IsBytes t :=
  unescape_isBytes s.length _ s (le_refl _) hs t h

theorem fullyDecodeLoop_isBytes (n : Nat) : ∀ s r : GoString, IsBytes s →
    fullyDecodeLoop n s = some r → IsBytes r := by
  induction n with
  | zero => intro s r _ h; simp [fullyDecodeLoop] at h
  | succ n ih =>
    intro s r hs h
    unfold fullyDecodeLoop at h
    cases hq : QueryUnescape s with
    | error e =>
      simp only [hq] at h
      injection h with h
      subst h
      exact hs
    | ok temp =>
      simp only [hq] at h
      split at h
      · injection h with h
        subst h
        exact hs
      · exact ih temp r (QueryUnescape_isBytes s temp hs hq) h

theorem fullyDecode_isBytes (s : GoString) (hs : IsBytes s) : IsBytes (fullyDecode s) := by
  obtain ⟨r, hr⟩ := fullyDecodeLoop_enough (decodeMeasure s + 1) s (by omega)
  rw [fullyDecode_eq s r _ hr]
  exact fullyDecodeLoop_isBytes _ s r hs hr

theorem queryOf_subset (s : GoString) : ∀ c ∈ queryOf s, c ∈ s := by
  intro c hc
  unfold queryOf at hc
  exact (mem_Cut_fst _ _ _ (mem_Cut_snd _ _ _ hc)).1

theorem splitAmp_subset (q : GoString) : ∀ seg ∈ splitAmp q, ∀ c ∈ seg, c ∈ q := by
  induction q with
  | nil =>
    intro seg hseg c hc
    simp [splitAmp] at hseg
    subst hseg
    simp at hc
  | cons x q ih =>
    intro seg hseg c hc
    unfold splitAmp at hseg
    split at hseg
    · rw [List.mem_cons] at hseg
      rcases hseg with h | h
      · subst h; simp at hc
      · exact List.mem_cons_of_mem _ (ih seg h c hc)
    · split at hseg
      · rename_i s0 segs hsp
        rw [List.mem_cons] at hseg
        rcases hseg with h | h
        · subst h
          rw [List.mem_cons] at hc
          rcases hc with hc | hc
          · subst hc; exact List.mem_cons_self _ _
          · exact List.mem_cons_of_mem _ (ih s0 (by rw [hsp]; exact List.mem_cons_self _ _) c hc)
        · exact List.mem_cons_of_mem _ (ih seg (by rw [hsp]; exact List.mem_cons_of_mem _ h) c hc)
      · simp at hseg
        subst hseg
        simp at hc
        subst hc
        exact List.mem_cons_self _ _

theorem queryPairs_isBytes (q : GoString) (hq : IsBytes q) :
    ∀ kv ∈ queryPairs q, IsBytes kv.1 ∧ IsBytes kv.2 := by
  intro kv hkv
  unfold queryPairs at hkv
  rw [List.mem_filterMap] at hkv
  obtain ⟨seg, hseg, hp⟩ := hkv
  have hsegb : IsBytes seg := fun c hc => hq c (splitAmp_subset q seg hseg c hc)
  unfold parsePair at hp
  split at hp
  · simp at hp
  · split at hp
    · simp at hp
    · split at hp
      · simp at hp
      · rename_i k hk
        split at hp
        · simp at hp
        · rename_i v hv
          injection hp with hp
          subst hp
          exact ⟨QueryUnescape_isBytes _ _ (fun c hc => hsegb c (mem_Cut_fst _ _ _ hc).1) hk,
            QueryUnescape_isBytes _ _ (fun c hc => hsegb c (mem_Cut_snd _ _ _ hc)) hv⟩

/-! ## The query of the rebuilt URL -/

theorem rebuild_RawQuery (u : URL) :
    (rebuild u).RawQuery =
      Values.Encode (trackingParams.foldl Values.Del
        ((queryPairs u.RawQuery).foldl (fun m kv => Values.add m kv.1 kv.2) [])) := by
  simp only [rebuild, delTracking, URL.Query, ParseQuery]

theorem rebuild_Scheme_Opaque (u : URL) :
    (rebuild u).Scheme = u.Scheme ∧ (rebuild u).Opaque = u.Opaque := by
  unfold rebuild
  exact ⟨rfl, rfl⟩

/-- The query of the string form of the rebuilt URL, read back as parameters, against
the parameters of the decoded input that are not tracking parameters: the same
parameters, sorted by name, those of one name in their original order. -/
theorem rebuilt_query (rawURL : GoString) (hb : IsBytes rawURL) (u : URL)
    (hp : Parse (fullyDecode (trimInput rawURL)) = .ok u) :
    queryOf (rebuild u).String = (rebuild u).RawQuery ∧
    queryPairs (rebuild u).RawQuery =
      Values.pairs (trackingParams.foldl Values.Del
        ((queryPairs (queryOf (fullyDecode (trimInput rawURL)))).foldl
          (fun m kv => Values.add m kv.1 kv.2) [])) ∧
    ∀ kv ∈ queryPairs (queryOf (fullyDecode (trimInput rawURL))),
      IsBytes kv.1 ∧ IsBytes kv.2 := by
  obtain ⟨hq, hs, ho⟩ := Parse_fields _ _ hp
  have hdec : IsBytes (fullyDecode (trimInput rawURL)) :=
    fullyDecode_isBytes _ fun c hc => hb c (trimInput_subset _ c hc)
  have hpb := queryPairs_isBytes _ (fun c hc => hdec c (queryOf_subset _ c hc))
  refine ⟨?_, ?_, hpb⟩
  · apply queryOf_String (rebuild u) (by rw [(rebuild_Scheme_Opaque u).1]; exact hs)
      (by rw [(rebuild_Scheme_Opaque u).2]; exact ho)
    intro c hc
    rw [rebuild_RawQuery] at hc
    rcases Encode_bytes _ c hc with h | h | h
    · exact (IsQuerySafe_ne h).2.2.2.1
    · omega
    · omega
  · rw [rebuild_RawQuery, hq]
    apply queryPairs_Encode
    intro kv hkv
    have hperm := (pairs_foldl (queryPairs (queryOf (fullyDecode (trimInput rawURL))))
      trackingParams).2.2.1
    have := (List.mem_filter.mp (hperm.mem_iff.mp hkv)).1
    exact hpb kv this

theorem trackingParams_unescape : ∀ t ∈ trackingParams, QueryUnescape t = .ok t := by
  decide

/-- C1: when `cleanURL` succeeds and returns the rebuilt URL (no redirect unwrap
applies), the query string of the returned URL holds no parameter whose name is one of
the 12 tracking parameters, whether the names are read decoded, as `url.ParseQuery`
reads them, or as they are written. -/
theorem cleanURL_strips_tracking (rawURL : GoString) (hb : IsBytes rawURL) (u : URL)
    (hp : Parse (fullyDecode (trimInput rawURL)) = .ok u)
    (hno : unwrapRedirect (rebuild u).String = none) :
    cleanURL rawURL = ((rebuild u).String, none) ∧
    (∀ kv ∈ queryPairs (queryOf (cleanURL rawURL).1), kv.1 ∉ trackingParams) ∧
    (∀ seg ∈ splitAmp (queryOf (cleanURL rawURL).1), (Cut seg 61).1 ∉ trackingParams) ∧
    trackingParams.length = 12 := by
  have hc : cleanURL rawURL = ((rebuild u).String, none) := by
    simp [cleanURL, hp, hno]
  obtain ⟨h1, h2, h3⟩ := rebuilt_query rawURL hb u hp
  have hpf := pairs_foldl (queryPairs (queryOf (fullyDecode (trimInput rawURL)))) trackingParams
  refine ⟨hc, ?_, ?_, by decide⟩
  · rw [hc]
    simp only []
    rw [h1, h2]
    exact hpf.2.2.2
  · rw [hc]
    simp only []
    rw [h1, rebuild_RawQuery, Encode_eq]
    have hq := (Parse_fields _ _ hp).1
    rw [hq]
    generalize hP : Values.pairs (trackingParams.foldl Values.Del
        ((queryPairs (queryOf (fullyDecode (trimInput rawURL)))).foldl
          (fun m kv => Values.add m kv.1 kv.2) [])) = P
    rw [hP] at hpf
    have hmemI : ∀ kv ∈ P, IsBytes kv.1 ∧ kv.1 ∉ trackingParams := by
      intro kv hkv
      have := (List.mem_filter.mp (hpf.2.2.1.mem_iff.mp hkv)).1
      exact ⟨(h3 kv this).1, hpf.2.2.2 kv hkv⟩
    have hno38 : ∀ kv : GoString × GoString, ∀ c ∈ encodePair kv, c ≠ 38 := by
      intro kv c hc
      rcases encodePair_bytes kv c hc with h | h
      · exact (IsQuerySafe_ne h).1
      · omega
    have hseg : ∀ kv ∈ P, (Cut (encodePair kv) 61).1 ∉ trackingParams := by
      intro kv hkv hmem
      have hcut : Cut (encodePair kv) 61 = (QueryEscape kv.1, QueryEscape kv.2) := by
        unfold encodePair
        rw [List.append_assoc, List.singleton_append]
        exact Cut_append_sep _ _ _ fun c hc => (IsQuerySafe_ne (QueryEscape_safe _ c hc)).2.1
      rw [hcut] at hmem
      have e1 := trackingParams_unescape _ hmem
      rw [QueryUnescape_QueryEscape _ (hmemI kv hkv).1] at e1
      injection e1 with e1
      apply (hmemI kv hkv).2
      rw [e1]
      exact hmem
    intro seg hs
    match P, hseg with
    | [], _ =>
      simp [splitAmp] at hs
      subst hs
      decide
    | kv :: P', hseg =>
      rw [List.map_cons, List.foldl_cons] at hs
      have h0 : writeSegment [] (encodePair kv) = encodePair kv := by simp [writeSegment]
      rw [h0, foldl_writeSegment_ne_nil _ _ (encodePair_ne_nil kv),
        splitAmp_join _ _ (hno38 kv) (by
          intro t ht
          rw [List.mem_map] at ht
          obtain ⟨kv', _, rfl⟩ := ht
          exact hno38 kv'), ← List.map_cons, List.mem_map] at hs
      obtain ⟨kv', hkv', rfl⟩ := hs
      exact hseg kv' hkv'

theorem cleanURL_strips_tracking_witness :
    cleanURL (str "http://example.com/a?utm_source=x&id=5&fbclid=y") =
      ((rebuild
          { Scheme := str "http", Host := str "example.com", Path := str "/a",
            RawQuery := str "utm_source=x&id=5&fbclid=y" }).String, none) ∧
    (∀ kv ∈ queryPairs (queryOf
        (cleanURL (str "http://example.com/a?utm_source=x&id=5&fbclid=y")).1),
      kv.1 ∉ trackingParams) ∧
    (∀ seg ∈ splitAmp (queryOf
        (cleanURL (str "http://example.com/a?utm_source=x&id=5&fbclid=y")).1),
      (Cut seg 61).1 ∉ trackingParams) ∧
    trackingParams.length = 12 :=
  cleanURL_strips_tracking (str "http://example.com/a?utm_source=x&id=5&fbclid=y") (by decide)
    { Scheme := str "http", Host := str "example.com", Path := str "/a",
      RawQuery := str "utm_source=x&id=5&fbclid=y" } (by decide) (by decide)

/-- C2, as stated, fails: `Values.Encode` writes the parameters sorted by name, so
`b=1&a=2` comes back as `a=2&b=1`; the sequence of parameters of the returned URL is
not the sequence of the input. -/
theorem cleanURL_reorders_counterexample :
    cleanURL (str "http://a.example/?b=1&a=2") = (str "http://a.example/?a=2&b=1", none) ∧
    unwrapRedirect (str "http://a.example/?a=2&b=1") = none ∧
    queryPairs (queryOf (cleanURL (str "http://a.example/?b=1&a=2")).1) =
      [(str "a", str "2"), (str "b", str "1")] ∧
    (queryPairs (queryOf (fullyDecode (trimInput (str "http://a.example/?b=1&a=2"))))).filter
      (fun kv => decide (kv.1 ∉ trackingParams)) = [(str "b", str "1"), (str "a", str "2")] ∧
    queryPairs (queryOf (cleanURL (str "http://a.example/?b=1&a=2")).1) ≠
      (queryPairs (queryOf (fullyDecode (trimInput (str "http://a.example/?b=1&a=2"))))).filter
        (fun kv => decide (kv.1 ∉ trackingParams)) := by
  decide

/-! ## Unwrapping a redirect -/

theorem unescape_plain (s : GoString) (h : ∀ c ∈ s, c ≠ 37 ∧ c ≠ 43) :
    unescape s encodeQueryComponent = .ok s := by
  induction s with
  | nil => simp [unescape]
  | cons c s ih =>
    have hc := h c (List.mem_cons_self _ _)
    rw [unescape_other _ _ _ hc.1 hc.2, if_neg (by simp),
      ih fun x hx => h x (List.mem_cons_of_mem _ hx)]

theorem unescape_append_plain (a b : GoString) (h : ∀ c ∈ a, c ≠ 37 ∧ c ≠ 43) :
    unescape (a ++ b) encodeQueryComponent =
      match unescape b encodeQueryComponent with
      | .ok t => .ok (a ++ t)
      | .error e => .error e := by
  induction a with
  | nil =>
    simp only [List.nil_append]
    cases unescape b encodeQueryComponent <;> rfl
  | cons c a ih =>
    have hc := h c (List.mem_cons_self _ _)
    rw [List.cons_append, unescape_other _ _ _ hc.1 hc.2, if_neg (by simp),
      ih fun x hx => h x (List.mem_cons_of_mem _ hx)]
    cases unescape b encodeQueryComponent <;> rfl

theorem setPath_RawQuery (u : URL) (p q : GoString) :
    URL.setPath { u with RawQuery := q } p =
      match URL.setPath u p with
      | .ok v => .ok { v with RawQuery := q }
      | .error e => .error e := by
  unfold URL.setPath
  cases unescape p encodePath with
  | error e => rfl
  | ok path =>
    simp only []
    split <;> rfl

theorem parseRest_RawQuery (u : URL) (rest q : GoString) :
    parseRest { u with RawQuery := q } rest =
      match parseRest u rest with
      | .ok v => .ok { v with RawQuery := q }
      | .error e => .error e := by
  unfold parseRest
  simp only []
  split
  · rfl
  · split
    · rfl
    · split
      · cases parseAuthority (List.takeWhile (fun x => decide (x ≠ 47)) (List.drop 2 rest)) with
        | error e => rfl
        | ok r =>
          obtain ⟨user, host⟩ := r
          simp only []
          exact setPath_RawQuery { u with User := user, Host := host } _ q
      · split
        · exact setPath_RawQuery { u with OmitHost := true } _ q
        · exact setPath_RawQuery u _ q

theorem stringHead_RawQuery (u : URL) (q : GoString) :
    URL.stringHead { u with RawQuery := q } = URL.stringHead u := by
  unfold URL.stringHead URL.EscapedPath
  rfl

theorem runGreedyStarNot_all (c : Nat) (k : GoString → Caps → Option Caps) (caps r : Caps)
    (t : GoString) (ht : ∀ x ∈ t, x ≠ c) (hk : k [] caps = some r) :
    runGreedyStarNot c k caps t = some r := by
  induction t with
  | nil => simpa [runGreedyStarNot] using hk
  | cons x t ih =>
    have hx := ht x (List.mem_cons_self _ _)
    rw [runGreedyStarNot, if_pos hx, ih fun y hy => ht y (List.mem_cons_of_mem _ hy)]
    rfl

theorem redirectRe_eq : redirectRe = redirectHead redirectTail := rfl

theorem runGreedyStarNot_isSome (c : Nat) (k : GoString → Caps → Option Caps) (caps : Caps)
    (t : GoString) (ht : ∀ x ∈ t, x ≠ c) (hk : (k [] caps).isSome = true) :
    runGreedyStarNot c k caps t = k [] caps := by
  obtain ⟨r, hr⟩ := Option.isSome_iff_exists.mp hk
  rw [hr]
  exact runGreedyStarNot_all c k caps r t ht hr

theorem run_seq (a b : Re) (s : GoString) (caps : Caps) (k : GoString → Caps → Option Caps) :
    Re.run (.seq a b) s caps k = Re.run a s caps fun s' caps' => Re.run b s' caps' k := by
  simp [Re.run]

theorem run_lit_append (l s : GoString) (caps : Caps) (k : GoString → Caps → Option Caps) :
    Re.run (.lit l) (l ++ s) caps k = k s caps := by
  have h1 : List.isPrefixOf l (l ++ s) = true := by
    rw [List.isPrefixOf_iff_prefix]
    exact List.prefix_append l s
  simp [Re.run, h1]

theorem run_lazy_of_isSome (s : GoString) (caps : Caps) (k : GoString → Caps → Option Caps)
    (hk : (k s caps).isSome = true) : Re.run .lazyStarAny s caps k = k s caps := by
  obtain ⟨r, hr⟩ := Option.isSome_iff_exists.mp hk
  cases s with
  | nil => simp [Re.run, runLazyStarAny]
  | cons c t => simp [Re.run, runLazyStarAny, hr]

/-- The end of the pattern on `url=` followed by a non-empty text without `&`: group 3
is that text. -/
theorem run_redirectTail (E : GoString) (caps : Caps) (k : GoString → Caps → Option Caps)
    (hne : E ≠ []) (hE : ∀ x ∈ E, x ≠ 38) (hk : (k [] ((3, E) :: caps)).isSome = true) :
    Re.run redirectTail (str "url=" ++ E) caps k = k [] ((3, E) :: caps) := by
  have hinner : Re.run (.cap 3 (.plusNot 38)) E caps k = k [] ((3, E) :: caps) := by
    obtain ⟨x, t, rfl⟩ := List.exists_cons_of_ne_nil hne
    have hx := hE x (List.mem_cons_self _ _)
    have ht : ∀ y ∈ t, y ≠ 38 := fun y hy => hE y (List.mem_cons_of_mem _ hy)
    simp only [Re.run, if_pos hx]
    rw [runGreedyStarNot_isSome 38 _ _ t ht (by simpa using hk)]
    simp
  have hmid : Re.run (.seq (.lit (str "url=")) (.cap 3 (.plusNot 38))) (str "url=" ++ E) caps k =
      k [] ((3, E) :: caps) := by
    rw [run_seq, run_lit_append, hinner]
  unfold redirectTail
  rw [run_seq, run_lazy_of_isSome _ _ _ (by rw [hmid]; exact hk), hmid]

/-- The front of the pattern on each of the eight redirect prefixes. -/
theorem run_redirectHead : ∀ scheme ∈ redirectSchemes, ∀ host ∈ redirectHosts,
    ∀ (tail : Re) (s : GoString) (k : GoString → Caps → Option Caps),
    Re.run (redirectHead tail) (scheme ++ str "://" ++ host ++ str "/url?" ++ s) [] k =
      Re.run tail s (hostCaps host) k := by
  intro scheme hs host hh
  simp only [redirectSchemes, redirectHosts, List.mem_cons, List.mem_singleton,
    List.not_mem_nil, or_false] at hs hh
  rcases hs with rfl | rfl <;> rcases hh with rfl | rfl | rfl | rfl <;>
    (intro tail s k
     simp [str, utf8Bytes, redirectHead, Re.run, List.isPrefixOf, hostCaps, HasPrefix,
       Option.or_none])

theorem Re_find_of_isSome (re : Re) (s : GoString)
    (h : (Re.run re s [] fun s' caps =>
      some ((0, s.take (s.length - s'.length)) :: caps)).isSome = true) :
    Re.find re s = Re.run re s [] fun s' caps =>
      some ((0, s.take (s.length - s'.length)) :: caps) := by
  obtain ⟨r, hr⟩ := Option.isSome_iff_exists.mp h
  cases s with
  | nil =>
    rw [Re.find]
    simp
  | cons c t =>
    rw [Re.find, hr]
    rfl

/-- The redirect check on a redirect prefix followed by `url=` and a non-empty text
without `&`: the pattern matches, with that text as group 3. -/
theorem unwrapRedirect_redirect (scheme host E d : GoString) (hs : scheme ∈ redirectSchemes)
    (hh : host ∈ redirectHosts) (hne : E ≠ []) (hE : ∀ x ∈ E, x ≠ 38)
    (hdec : QueryUnescape E = .ok d) :
    unwrapRedirect (scheme ++ str "://" ++ host ++ str "/url?" ++ (str "url=" ++ E)) =
      some d := by
  have hrun : ∀ k : GoString → Caps → Option Caps,
      (k [] ((3, E) :: hostCaps host)).isSome = true →
      Re.run redirectRe (scheme ++ str "://" ++ host ++ str "/url?" ++ (str "url=" ++ E)) [] k =
        k [] ((3, E) :: hostCaps host) := by
    intro k hk
    rw [redirectRe_eq, run_redirectHead scheme hs host hh, run_redirectTail E _ k hne hE hk]
  have hfind := Re_find_of_isSome redirectRe
    (scheme ++ str "://" ++ host ++ str "/url?" ++ (str "url=" ++ E))
    (by rw [hrun _ (by simp)]; simp)
  rw [hrun _ (by simp)] at hfind
  unfold unwrapRedirect FindStringSubmatch
  simp only [hfind]
  simp [List.range, List.range.loop, Caps.group, hdec]

theorem getScheme_redirect : ∀ scheme ∈ redirectSchemes, ∀ rest : GoString,
    getScheme (scheme ++ 58 :: rest) = .ok (scheme, rest) := by
  intro scheme hs
  simp only [redirectSchemes, List.mem_cons, List.mem_singleton, List.not_mem_nil,
    or_false] at hs
  rcases hs with rfl | rfl <;>
    (intro rest
     simp [str, utf8Bytes, getScheme, getSchemeLoop])

theorem redirect_facts : ∀ scheme ∈ redirectSchemes, ∀ host ∈ redirectHosts,
    (∀ c ∈ scheme ++ str "://" ++ host ++ str "/url?url=",
      32 < c ∧ c < 127 ∧ c ∉ [37, 43, 60, 62, 35, 38, 59]) ∧
    scheme ++ str "://" ++ host ++ str "/url?url=" =
      scheme ++ 58 :: (str "//" ++ host ++ str "/url" ++ 63 :: str "url=") ∧
    parseRest { Scheme := ToLower scheme } (str "//" ++ host ++ str "/url") =
      .ok { Scheme := scheme, Host := host, Path := str "/url" } ∧
    URL.stringHead { Scheme := scheme, Host := host, Path := str "/url" } =
      scheme ++ str "://" ++ host ++ str "/url" ∧
    (∀ c ∈ str "//" ++ host ++ str "/url", c ≠ 63) ∧
    (scheme ++ str "://" ++ host ++ str "/url?url=").head? = some 104 := by
  decide

theorem not_force_query (R q : GoString) (hq : q ≠ []) :
    ¬ ((R ++ 63 :: q).getLast? = some 63 ∧ (R ++ 63 :: q).count 63 = 1) := by
  rintro ⟨h1, h2⟩
  have e : R ++ 63 :: q = (R ++ [63]) ++ q := by simp
  rw [e, List.getLast?_append_of_ne_nil _ hq] at h1
  have hmem : 63 ∈ q := List.mem_of_getLast?_eq_some h1
  rw [List.count_append, List.count_cons_self] at h2
  have : 0 < List.count 63 q := List.count_pos_iff.mpr hmem
  omega

/-- `parse` on a redirect prefix followed by a query. -/
theorem parse_redirect (scheme host q : GoString) (hs : scheme ∈ redirectSchemes)
    (hh : host ∈ redirectHosts) (hq : q ≠ []) (hctl : ∀ c ∈ q, 32 ≤ c ∧ c ≠ 127) :
    parse (scheme ++ 58 :: (str "//" ++ host ++ str "/url" ++ 63 :: q)) =
      .ok { Scheme := scheme, Host := host, Path := str "/url", RawQuery := q } := by
  obtain ⟨hall, hform, hrest, _, hno63, _⟩ := redirect_facts scheme hs host hh
  rw [hform] at hall
  unfold parse
  have hc : stringContainsCTLByte
      (scheme ++ 58 :: (str "//" ++ host ++ str "/url" ++ 63 :: q)) = false := by
    unfold stringContainsCTLByte
    rw [List.any_eq_false]
    intro c hc
    have hcases : c ∈ scheme ++ 58 :: (str "//" ++ host ++ str "/url" ++ 63 :: str "url=") ∨
        c ∈ q := by
      simp only [List.mem_append, List.mem_cons] at hc ⊢
      tauto
    rcases hcases with hc | hc
    · have := hall c hc
      simp
      omega
    · have := hctl c hc
      simp
      omega
  have h42 : scheme ++ 58 :: (str "//" ++ host ++ str "/url" ++ 63 :: q) ≠ [42] := by
    intro h
    have := congrArg List.length h
    simp at this
    omega
  rw [hc, if_neg (by simp), if_neg h42, getScheme_redirect scheme hs]
  simp only []
  rw [if_neg (not_force_query _ q hq), Cut_append_sep _ _ _ hno63]
  simp only []
  have := parseRest_RawQuery { Scheme := ToLower scheme } (str "//" ++ host ++ str "/url") q
  rw [hrest] at this
  exact this

theorem foldl_Del_keep (T : List GoString) (k : GoString) (vs : List GoString) (h : k ∉ T) :
    T.foldl Values.Del [(k, vs)] = [(k, vs)] := by
  induction T with
  | nil => rfl
  | cons t T ih =>
    rw [List.mem_cons, not_or] at h
    have e : Values.Del [(k, vs)] t = [(k, vs)] := by
      simp [Values.Del, h.1]
    rw [List.foldl_cons, e, ih h.2]

/-- The rebuilt query of a URL whose only parameter is `url`. -/
theorem rebuild_url_only (u : URL) (d : GoString) (hu : u.RawQuery = str "url=" ++ d)
    (hd : ∀ c ∈ d, c ≠ 37 ∧ c ≠ 43 ∧ c ≠ 38 ∧ c ≠ 59) :
    (rebuild u).RawQuery = str "url=" ++ QueryEscape d := by
  have hurl : str "url=" = str "url" ++ [61] := by decide
  have hp : parsePair (str "url=" ++ d) = some (str "url", d) := by
    unfold parsePair
    have h1 : Contains (str "url=" ++ d) 59 = false := by
      simp only [Contains, decide_eq_false_iff_not, List.mem_append, not_or]
      exact ⟨by decide, fun h => (hd 59 h).2.2.2 rfl⟩
    have h2 : str "url=" ++ d ≠ [] := by
      intro h
      have := (List.append_eq_nil.mp h).1
      revert this
      decide
    have h3 : Cut (str "url=" ++ d) 61 = (str "url", d) := by
      rw [hurl, List.append_assoc, List.singleton_append]
      exact Cut_append_sep _ _ _ (by decide)
    have h4 : QueryUnescape (str "url") = .ok (str "url") := by decide
    have h5 : QueryUnescape d = .ok d := unescape_plain d fun c hc => ⟨(hd c hc).1, (hd c hc).2.1⟩
    simp only [h1, Bool.false_eq_true, if_false, h2, h3, h4, h5]
  have hq : queryPairs (str "url=" ++ d) = [(str "url", d)] := by
    unfold queryPairs
    rw [splitAmp_noamp _ (by
      intro c hc
      rw [List.mem_append] at hc
      rcases hc with hc | hc
      · revert c
        decide
      · exact (hd c hc).2.2.1)]
    simp [hp]
  rw [rebuild_RawQuery, hu, hq]
  simp only [List.foldl_cons, List.foldl_nil, Values.add]
  rw [foldl_Del_keep _ _ _ (by decide), Encode_eq]
  have hpairs : Values.pairs [(str "url", [d])] = [(str "url", d)] := by
    simp [Values.pairs, sortKeys, Values.lookup]
  rw [hpairs]
  have he : QueryEscape (str "url") = str "url" := by decide
  simp [writeSegment, encodePair, he, hurl]

theorem QueryEscape_ne_nil (d : GoString) (h : d ≠ []) : QueryEscape d ≠ [] := by
  obtain ⟨c, t, rfl⟩ := List.exists_cons_of_ne_nil h
  unfold QueryEscape
  rw [escape_cons]
  split
  · simp
  · split <;> simp

/-- C3 fails on the code: the whole input is decoded before it is parsed, so a `&` of
the destination becomes a separator of the wrapper's own query and the destination is
cut there. The input has scheme `https`, host `l.google.com`, path `/url` and a
parameter `url` holding the percent-encoding of `https://real.example.com/page?a=1&b=2`,
and `cleanURL` returns `https://real.example.com/page?a=1`. -/
theorem unwrap_truncates_destination :
    QueryEscape (str "https://real.example.com/page?a=1&b=2") =
      str "https%3A%2F%2Freal.example.com%2Fpage%3Fa%3D1%26b%3D2" ∧
    (Parse (str "https://l.google.com/url?url=https%3A%2F%2Freal.example.com%2Fpage%3Fa%3D1%26b%3D2")).map
        (fun u => (u.Scheme, u.Host, u.Path, Values.lookup u.Query (str "url"))) =
      .ok (str "https", str "l.google.com", str "/url",
        [str "https://real.example.com/page?a=1&b=2"]) ∧
    cleanURL (str "https://l.google.com/url?url=https%3A%2F%2Freal.example.com%2Fpage%3Fa%3D1%26b%3D2") =
      (str "https://real.example.com/page?a=1", none) ∧
    str "https://real.example.com/page?a=1" ≠ str "https://real.example.com/page?a=1&b=2" := by
  decide

/-- Where the unwrapping works: for scheme `http` or `https`, one of the four redirector
hosts, path `/url` and a query that is just the parameter `url` holding the
percent-encoding of a non-empty destination `d` without control characters and without
`%`, `+`, `&`, `;` and `#`, `cleanURL` succeeds and returns exactly `d`; so it does on
`https://l.google.com/url?q=x&url=https%3A%2F%2Freal.example.com%2Fpage`. -/
theorem cleanURL_unwraps_redirect (scheme host d : GoString) (hs : scheme ∈ redirectSchemes)
    (hh : host ∈ redirectHosts) (hne : d ≠ []) (hb : IsBytes d)
    (hd : ∀ c ∈ d, 32 ≤ c ∧ c ≠ 127 ∧ c ≠ 37 ∧ c ≠ 43 ∧ c ≠ 38 ∧ c ≠ 59 ∧ c ≠ 35) :
    cleanURL (scheme ++ str "://" ++ host ++ str "/url?url=" ++ QueryEscape d) = (d, none) ∧
    cleanURL (str "https://l.google.com/url?q=x&url=https%3A%2F%2Freal.example.com%2Fpage") =
      (str "https://real.example.com/page", none) := by
  refine ⟨?_, by decide⟩
  obtain ⟨hall, hform, _, hhead, _, hfirst⟩ := redirect_facts scheme hs host hh
  have hEne := QueryEscape_ne_nil d hne
  have hEsafe := QueryEscape_safe d
  -- trimming changes nothing
  have htrim : trimInput (scheme ++ str "://" ++ host ++ str "/url?url=" ++ QueryEscape d) =
      scheme ++ str "://" ++ host ++ str "/url?url=" ++ QueryEscape d := by
    unfold trimInput
    have h1 : TrimSpace (scheme ++ str "://" ++ host ++ str "/url?url=" ++ QueryEscape d) =
        scheme ++ str "://" ++ host ++ str "/url?url=" ++ QueryEscape d := by
      have := TrimSpace_ascii [] [] (scheme ++ str "://" ++ host ++ str "/url?url=" ++ QueryEscape d)
        (by simp) (by simp) ?_ ?_
      · simpa using this
      · refine ⟨104, ?_, by decide, by decide⟩
        generalize scheme ++ str "://" ++ host ++ str "/url?url=" = X at hfirst
        cases X with
        | nil => simp at hfirst
        | cons x X => simpa using hfirst
      · refine ⟨(QueryEscape d).getLast hEne, ?_, ?_⟩
        · rw [List.getLast?_append_of_ne_nil _ hEne]
          exact List.getLast?_eq_getLast _ hEne
        · have := hEsafe _ (List.getLast_mem hEne)
          unfold IsQuerySafe at this
          refine ⟨by omega, ?_⟩
          simp [asciiSpace]
          omega
    rw [h1]
    apply Trim_eq_self
    intro c hc
    rw [List.mem_append] at hc
    rcases hc with hc | hc
    · have := (hall c hc).2.2
      simp at this ⊢
      omega
    · have := hEsafe c hc
      unfold IsQuerySafe at this
      simp
      omega
  -- the decode loop ends on the prefix followed by the destination
  have hXplain : ∀ c ∈ scheme ++ str "://" ++ host ++ str "/url?url=", c ≠ 37 ∧ c ≠ 43 := by
    intro c hc
    have := (hall c hc).2.2
    simp at this
    omega
  have hdec : fullyDecode (scheme ++ str "://" ++ host ++ str "/url?url=" ++ QueryEscape d) =
      scheme ++ str "://" ++ host ++ str "/url?url=" ++ d := by
    apply fullyDecode_eq _ _ 2
    have hpass1 : QueryUnescape (scheme ++ str "://" ++ host ++ str "/url?url=" ++ QueryEscape d) =
        .ok (scheme ++ str "://" ++ host ++ str "/url?url=" ++ d) := by
      unfold QueryUnescape
      rw [unescape_append_plain _ _ hXplain]
      have := QueryUnescape_QueryEscape d hb
      unfold QueryUnescape at this
      rw [this]
    have hpass2 : QueryUnescape (scheme ++ str "://" ++ host ++ str "/url?url=" ++ d) =
        .ok (scheme ++ str "://" ++ host ++ str "/url?url=" ++ d) := by
      apply unescape_plain
      intro c hc
      rw [List.mem_append] at hc
      rcases hc with hc | hc
      · exact hXplain c hc
      · exact ⟨(hd c hc).2.2.1, (hd c hc).2.2.2.1⟩
    rw [fullyDecodeLoop, hpass1]
    simp only []
    split
    · rename_i heq
      rw [← heq]
    · rw [fullyDecodeLoop, hpass2]
      simp
  -- the decoded URL parses
  have hparse : Parse (scheme ++ str "://" ++ host ++ str "/url?url=" ++ d) =
      .ok { Scheme := scheme, Host := host, Path := str "/url", RawQuery := str "url=" ++ d } := by
    unfold Parse
    have hcut : Cut (scheme ++ str "://" ++ host ++ str "/url?url=" ++ d) 35 =
        (scheme ++ str "://" ++ host ++ str "/url?url=" ++ d, []) := by
      apply Cut_no_sep
      intro c hc
      rw [List.mem_append] at hc
      rcases hc with hc | hc
      · have := (hall c hc).2.2
        simp at this
        omega
      · exact (hd c hc).2.2.2.2.2.2
    rw [hcut]
    simp only []
    have hshape : scheme ++ str "://" ++ host ++ str "/url?url=" ++ d =
        scheme ++ 58 :: (str "//" ++ host ++ str "/url" ++ 63 :: (str "url=" ++ d)) := by
      rw [hform]
      simp
    rw [hshape, parse_redirect scheme host (str "url=" ++ d) hs hh (by
      intro h
      have := (List.append_eq_nil.mp h).1
      revert this
      decide) (by
      intro c hc
      rw [List.mem_append] at hc
      rcases hc with hc | hc
      · revert c
        decide
      · exact ⟨(hd c hc).1, (hd c hc).2.1⟩)]
    simp
  -- the rebuilt URL is the input again
  have hraw := rebuild_url_only
    { Scheme := scheme, Host := host, Path := str "/url", RawQuery := str "url=" ++ d } d rfl
    fun c hc => ⟨(hd c hc).2.2.1, (hd c hc).2.2.2.1, (hd c hc).2.2.2.2.1, (hd c hc).2.2.2.2.2.1⟩
  have hstring : (rebuild
      { Scheme := scheme, Host := host, Path := str "/url", RawQuery := str "url=" ++ d }).String =
      scheme ++ str "://" ++ host ++ str "/url?" ++ (str "url=" ++ QueryEscape d) := by
    have hsh : (rebuild
        { Scheme := scheme, Host := host, Path := str "/url",
          RawQuery := str "url=" ++ d }).stringHead =
        scheme ++ str "://" ++ host ++ str "/url" := by
      rw [← hhead]
      exact (stringHead_RawQuery _ _).trans
        (stringHead_RawQuery { Scheme := scheme, Host := host, Path := str "/url" }
          (str "url=" ++ d))
    have hfrag : (rebuild
        { Scheme := scheme, Host := host, Path := str "/url",
          RawQuery := str "url=" ++ d }).Fragment = [] := rfl
    have hq : (rebuild
        { Scheme := scheme, Host := host, Path := str "/url",
          RawQuery := str "url=" ++ d }).RawQuery ≠ [] := by
      rw [hraw]
      intro h
      have := (List.append_eq_nil.mp h).1
      revert this
      decide
    have e3 : str "/url?" = str "/url" ++ [63] := by decide
    unfold URL.String
    simp only []
    rw [if_pos (Or.inr hq), if_neg (by rw [hfrag]; simp), hsh, hraw, e3]
    simp
  have hunwrap := unwrapRedirect_redirect scheme host (QueryEscape d) d hs hh hEne
    (fun x hx => (IsQuerySafe_ne (hEsafe x hx)).1) (QueryUnescape_QueryEscape d hb)
  unfold cleanURL
  simp only [htrim, hdec, hparse, hstring, hunwrap]

theorem cleanURL_unwraps_redirect_witness :
    cleanURL (str "https" ++ str "://" ++ str "l.google.com" ++ str "/url?url=" ++
      QueryEscape (str "https://real.example.com/page")) =
      (str "https://real.example.com/page", none) ∧
    cleanURL (str "https://l.google.com/url?q=x&url=https%3A%2F%2Freal.example.com%2Fpage") =
      (str "https://real.example.com/page", none) :=
  cleanURL_unwraps_redirect (str "https") (str "l.google.com")
    (str "https://real.example.com/page") (by decide) (by decide) (by decide) (by decide)
    (by decide)

/-! ## The parameters of the input, as written -/

theorem mem_Cut_iff (s : GoString) (sep c : Nat) (h : c ≠ sep) :
    c ∈ s ↔ c ∈ (Cut s sep).1 ∨ c ∈ (Cut s sep).2 := by
  unfold Cut
  simp only []
  have hsplit := List.takeWhile_append_dropWhile (fun x => decide (x ≠ sep)) s
  have hdrop : ∀ c, c ≠ sep → (c ∈ List.dropWhile (fun x => decide (x ≠ sep)) s ↔
      c ∈ (List.dropWhile (fun x => decide (x ≠ sep)) s).drop 1) := by
    intro c hc
    cases hd : List.dropWhile (fun x => decide (x ≠ sep)) s with
    | nil => simp
    | cons x t =>
      have hx := List.head?_dropWhile_not (fun x => decide (x ≠ sep)) s
      rw [hd] at hx
      simp at hx
      subst hx
      simp [hc]
  constructor
  · intro hc
    rw [← hsplit, List.mem_append] at hc
    rcases hc with hc | hc
    · exact Or.inl hc
    · exact Or.inr ((hdrop c h).mp hc)
  · rintro (hc | hc)
    · exact (List.takeWhile_sublist _).subset hc
    · exact (List.dropWhile_sublist _).subset (List.mem_of_mem_drop hc)

/-- One pass of `parseQuery` followed by the deletion of the tracking parameters, in
terms of the parameter as written. -/
theorem parsePair_kept (seg : GoString) :
    (parsePair seg).filter (fun kv => decide (kv.1 ∉ trackingParams)) =
      if decide (seg ≠ []) = true then keptPiece (Cut seg 61) else none := by
  unfold parsePair keptPiece
  have hc : Contains seg 59 = true ↔ (59 ∈ (Cut seg 61).1 ∨ 59 ∈ (Cut seg 61).2) := by
    simp only [Contains, decide_eq_true_eq]
    exact mem_Cut_iff seg 61 59 (by decide)
  by_cases h59 : Contains seg 59 = true
  · rw [if_pos h59, if_pos (hc.mp h59)]
    simp [Option.filter]
  · rw [if_neg h59, if_neg (fun h => h59 (hc.mpr h))]
    by_cases hne : seg = []
    · simp [hne, Option.filter]
    · simp only [hne, if_false, ne_eq, not_false_eq_true, decide_True, if_true]
      cases h1 : QueryUnescape (Cut seg 61).1 with
      | error e => simp [Option.filter]
      | ok k =>
        cases h2 : QueryUnescape (Cut seg 61).2 with
        | error e => simp [Option.filter]
        | ok v =>
          by_cases hk : k ∈ trackingParams
          · simp [Option.filter, hk]
          · simp [Option.filter, hk]

theorem queryPairs_filter_eq (q : GoString) :
    (queryPairs q).filter (fun kv => decide (kv.1 ∉ trackingParams)) =
      (queryPieces q).filterMap keptPiece := by
  unfold queryPairs queryPieces
  rw [List.filter_filterMap, List.filterMap_map, List.filterMap_filter]
  congr 1
  funext seg
  rw [parsePair_kept]
  rfl

theorem keptPiece_iff (p : GoString × GoString) (k v : GoString) :
    keptPiece p = some (k, v) ↔
      59 ∉ p.1 ∧ 59 ∉ p.2 ∧ QueryUnescape p.1 = .ok k ∧ QueryUnescape p.2 = .ok v ∧
        k ∉ trackingParams := by
  unfold keptPiece
  by_cases h59 : 59 ∈ p.1 ∨ 59 ∈ p.2
  · rw [if_pos h59]
    constructor
    · intro h
      simp at h
    · rintro ⟨h1, h2, _⟩
      rcases h59 with h | h
      · exact absurd h h1
      · exact absurd h h2
  · rw [if_neg h59]
    rw [not_or] at h59
    cases h1 : QueryUnescape p.1 with
    | error e => simp
    | ok k' =>
      cases h2 : QueryUnescape p.2 with
      | error e => simp
      | ok v' =>
        by_cases hk : k' ∈ trackingParams
        · simp only [hk, if_true, reduceCtorEq, false_iff, not_and]
          intro _ _ e1 _
          injection e1 with e1
          subst e1
          simpa using hk
        · simp only [hk, if_false, Option.some.injEq, Prod.mk.injEq, Except.ok.injEq]
          constructor
          · rintro ⟨rfl, rfl⟩
            exact ⟨h59.1, h59.2, rfl, rfl, hk⟩
          · rintro ⟨_, _, e1, e2, _⟩
            exact ⟨e1, e2⟩

/-- A parameter without `%` and `+` is kept as written, unless it holds a semicolon or
its name is a tracking parameter. -/
theorem keptPiece_plain (p : GoString × GoString)
    (h1 : ∀ c ∈ p.1, c ≠ 37 ∧ c ≠ 43) (h2 : ∀ c ∈ p.2, c ≠ 37 ∧ c ≠ 43) :
    keptPiece p =
      if decide (59 ∉ p.1 ∧ 59 ∉ p.2 ∧ p.1 ∉ trackingParams) = true then some p else none := by
  unfold keptPiece
  have e1 : QueryUnescape p.1 = .ok p.1 := unescape_plain _ h1
  have e2 : QueryUnescape p.2 = .ok p.2 := unescape_plain _ h2
  rw [e1, e2]
  by_cases h59 : 59 ∈ p.1 ∨ 59 ∈ p.2
  · rw [if_pos h59, if_neg]
    simp only [decide_eq_true_eq, not_and]
    intro a b
    rcases h59 with h | h
    · exact absurd h a
    · exact absurd h b
  · rw [if_neg h59]
    rw [not_or] at h59
    by_cases hk : p.1 ∈ trackingParams
    · simp [hk]
    · simp [hk, h59.1, h59.2]

theorem queryPieces_subset (q : GoString) :
    ∀ p ∈ queryPieces q, (∀ c ∈ p.1, c ∈ q) ∧ (∀ c ∈ p.2, c ∈ q) := by
  intro p hp
  unfold queryPieces at hp
  rw [List.mem_map] at hp
  obtain ⟨seg, hseg, rfl⟩ := hp
  have hs := splitAmp_subset q seg (List.mem_filter.mp hseg).1
  exact ⟨fun c hc => hs c (mem_Cut_fst _ _ _ hc).1, fun c hc => hs c (mem_Cut_snd _ _ _ hc)⟩

/-- The query `Encode` writes, piece by piece: the escaped names and values of its
parameters, in its order. -/
theorem queryPieces_Encode (v : Values) :
    queryPieces (Values.Encode v) =
      (Values.pairs v).map fun kv => (QueryEscape kv.1, QueryEscape kv.2) := by
  rw [Encode_eq]
  unfold queryPieces
  have hno : ∀ kv : GoString × GoString, ∀ c ∈ encodePair kv, c ≠ 38 := by
    intro kv c hc
    rcases encodePair_bytes kv c hc with h | h
    · exact (IsQuerySafe_ne h).1
    · omega
  have hcut : ∀ kv : GoString × GoString,
      Cut (encodePair kv) 61 = (QueryEscape kv.1, QueryEscape kv.2) := by
    intro kv
    unfold encodePair
    rw [List.append_assoc, List.singleton_append]
    exact Cut_append_sep _ _ _ fun c hc => (IsQuerySafe_ne (QueryEscape_safe _ c hc)).2.1
  generalize Values.pairs v = P
  match P with
  | [] => simp [splitAmp]
  | kv :: P =>
    rw [List.map_cons, List.foldl_cons]
    have h0 : writeSegment [] (encodePair kv) = encodePair kv := by simp [writeSegment]
    rw [h0, foldl_writeSegment_ne_nil _ _ (encodePair_ne_nil kv),
      splitAmp_join _ _ (hno kv) (by
        intro t ht
        rw [List.mem_map] at ht
        obtain ⟨kv', _, rfl⟩ := ht
        exact hno kv'), ← List.map_cons]
    have hfil : List.filter (fun seg => decide (seg ≠ [])) (List.map encodePair (kv :: P)) =
        List.map encodePair (kv :: P) := by
      rw [List.filter_eq_self]
      intro seg hseg
      rw [List.mem_map] at hseg
      obtain ⟨kv', _, rfl⟩ := hseg
      simpa using encodePair_ne_nil kv'
    rw [hfil, List.map_map]
    apply List.map_congr_left
    intro kv' _
    exact hcut kv'

/-! ## The end of the decode loop -/

theorem unescape_length (n : Nat) (mode : Encoding) : ∀ s : GoString, s.length ≤ n →
    ∀ t, unescape s mode = .ok t → t.length ≤ s.length := by
  induction n with
  | zero =>
    intro s hs t ht
    have : s = [] := List.length_eq_zero.mp (Nat.le_zero.mp hs)
    subst this
    simp [unescape] at ht
    subst ht
    simp
  | succ n ih =>
    intro s hs t ht
    match s, hs, ht with
    | [], _, ht =>
      simp [unescape] at ht
      subst ht
      simp
    | c :: rest, hs, ht =>
      by_cases h37 : c = 37
      · subst h37
        match rest, hs, ht with
        | [], _, ht => simp [unescape] at ht
        | [_], _, ht => simp [unescape] at ht
        | a :: b :: rest2, hs, ht =>
          rw [unescape_percent] at ht
          split at ht
          · simp at ht
          · split at ht
            · simp at ht
            · split at ht
              · simp at ht
              · split at ht
                · rename_i t' ht'
                  injection ht with ht
                  subst ht
                  have := ih rest2 (by simp at hs; omega) t' ht'
                  simp
                  omega
                · simp at ht
      · by_cases h43 : c = 43
        · subst h43
          rw [unescape_plus] at ht
          split at ht
          · rename_i t' ht'
            injection ht with ht
            subst ht
            have := ih rest (by simp at hs; omega) t' ht'
            simp
            omega
          · simp at ht
        · rw [unescape_other _ _ _ h37 h43] at ht
          split at ht
          · simp at ht
          · split at ht
            · rename_i t' ht'
              injection ht with ht
              subst ht
              have := ih rest (by simp at hs; omega) t' ht'
              simp
              omega
            · simp at ht

/-- A string that a decode pass leaves unchanged holds no `%` and no `+`. -/
theorem unescape_fixed_plain (s : GoString) (h : QueryUnescape s = .ok s) :
    ∀ c ∈ s, c ≠ 37 ∧ c ≠ 43 := by
  unfold QueryUnescape at h
  induction s with
  | nil => intro c hc; simp at hc
  | cons x rest ih =>
    by_cases h37 : x = 37
    · subst h37
      exfalso
      match rest, h with
      | [], h => simp [unescape] at h
      | [_], h => simp [unescape] at h
      | a :: b :: rest2, h =>
        rw [unescape_percent] at h
        split at h
        · simp at h
        · split at h
          · simp at h
          · split at h
            · simp at h
            · split at h
              · rename_i t' ht'
                injection h with h
                have hlen := unescape_length rest2.length _ rest2 (le_refl _) t' ht'
                have := congrArg List.length h
                simp at this
                omega
              · simp at h
    · by_cases h43 : x = 43
      · subst h43
        exfalso
        rw [unescape_plus] at h
        split at h
        · injection h with h
          simp at h
        · simp at h
      · rw [unescape_other _ _ _ h37 h43] at h
        split at h
        · simp at h
        · split at h
          · rename_i t' ht'
            injection h with h
            injection h with _ h2
            subst h2
            intro c hc
            rw [List.mem_cons] at hc
            rcases hc with hc | hc
            · subst hc; exact ⟨h37, h43⟩
            · exact ih ht' c hc
          · simp at h

/-- The decode loop ends on a string on which one more pass fails, or on a string
without `%` and `+`. -/
theorem fullyDecode_plain_or_error (s : GoString) :
    (∃ e, QueryUnescape (fullyDecode s) = .error e) ∨
      ∀ c ∈ fullyDecode s, c ≠ 37 ∧ c ≠ 43 := by
  obtain ⟨r, hr⟩ := fullyDecodeLoop_enough (decodeMeasure s + 1) s (by omega)
  rw [fullyDecode_eq s r _ hr]
  rcases fullyDecodeLoop_fixed _ s r hr with h | h
  · exact Or.inl h
  · exact Or.inr (unescape_fixed_plain r h)

/-- C2, amended: when `cleanURL` succeeds and returns the rebuilt URL, take the
parameters of the decoded input as written (the non-empty `&`-separated pieces of its
query, cut at the first `=`). A parameter is dropped when it holds a semicolon, when
its name or value does not percent-decode, or when its decoded name is a tracking
parameter; of every other one the decoded name and value are kept. The query of the
returned URL is, piece by piece, the escaped names and values of exactly the kept
parameters, in the order of `Values.Encode`: sorted by name (byte-wise), the parameters
of one name in their original relative order. The decode loop ends on a string on which
a pass fails or which holds no `%` and no `+`; when the decoded query holds neither,
the kept parameters are the written ones, names and values unchanged, without those
that hold a semicolon or have a tracking name. -/
theorem cleanURL_query_sorted (rawURL : GoString) (hb : IsBytes rawURL) (u : URL)
    (hp : Parse (fullyDecode (trimInput rawURL)) = .ok u)
    (hno : unwrapRedirect (rebuild u).String = none) :
    let decoded := fullyDecode (trimInput rawURL)
    let returned := queryPairs (queryOf (cleanURL rawURL).1)
    let kept := (queryPieces (queryOf decoded)).filterMap keptPiece
    cleanURL rawURL = ((rebuild u).String, none) ∧
    queryPieces (queryOf (cleanURL rawURL).1) =
      returned.map (fun kv => (QueryEscape kv.1, QueryEscape kv.2)) ∧
    returned.Perm kept ∧
    returned.Pairwise (fun a b => strLe a.1 b.1 = true) ∧
    (∀ k, returned.filter (fun kv => decide (kv.1 = k)) =
      kept.filter fun kv => decide (kv.1 = k)) ∧
    (∀ p k v, keptPiece p = some (k, v) ↔
      59 ∉ p.1 ∧ 59 ∉ p.2 ∧ QueryUnescape p.1 = .ok k ∧ QueryUnescape p.2 = .ok v ∧
        k ∉ trackingParams) ∧
    ((∃ e, QueryUnescape decoded = .error e) ∨ ∀ c ∈ decoded, c ≠ 37 ∧ c ≠ 43) ∧
    ((∀ c ∈ queryOf decoded, c ≠ 37 ∧ c ≠ 43) →
      kept = (queryPieces (queryOf decoded)).filter fun p =>
        decide (59 ∉ p.1 ∧ 59 ∉ p.2 ∧ p.1 ∉ trackingParams)) ∧
    cleanURL (str "http://a.example/?discount=20%25&id=5") =
      (str "http://a.example/?id=5", none) ∧
    cleanURL (str "http://a.example/?a=1;b=2&c=3") = (str "http://a.example/?c=3", none) := by
  intro decoded returned kept
  have hc : cleanURL rawURL = ((rebuild u).String, none) := by
    simp [cleanURL, hp, hno]
  obtain ⟨h1, h2, _⟩ := rebuilt_query rawURL hb u hp
  have hpf := pairs_foldl (queryPairs (queryOf (fullyDecode (trimInput rawURL)))) trackingParams
  have hret : returned = Values.pairs (trackingParams.foldl Values.Del
      ((queryPairs (queryOf (fullyDecode (trimInput rawURL)))).foldl
        (fun m kv => Values.add m kv.1 kv.2) [])) := by
    show queryPairs (queryOf (cleanURL rawURL).1) = _
    rw [hc]
    simp only []
    rw [h1, h2]
  have hkept : kept = (queryPairs (queryOf (fullyDecode (trimInput rawURL)))).filter
      fun kv => decide (kv.1 ∉ trackingParams) := (queryPairs_filter_eq _).symm
  refine ⟨hc, ?_, ?_, ?_, ?_, keptPiece_iff, fullyDecode_plain_or_error _, ?_,
    by decide, by decide⟩
  · rw [hret, hc]
    simp only []
    rw [h1, rebuild_RawQuery, (Parse_fields _ _ hp).1]
    exact queryPieces_Encode _
  · rw [hret, hkept]
    exact hpf.2.2.1
  · rw [hret]
    exact hpf.1
  · rw [hret, hkept]
    exact hpf.2.1
  · intro hplain
    show List.filterMap keptPiece (queryPieces (queryOf decoded)) = _
    rw [← List.filterMap_eq_filter]
    apply List.filterMap_congr
    intro p hp'
    have hsub := queryPieces_subset _ p hp'
    rw [keptPiece_plain p (fun c hc => hplain c (hsub.1 c hc))
      (fun c hc => hplain c (hsub.2 c hc))]
    by_cases hcond : 59 ∉ p.1 ∧ 59 ∉ p.2 ∧ p.1 ∉ trackingParams
    · simp [Option.guard, hcond]
    · simp [Option.guard, hcond]

theorem cleanURL_query_sorted_witness :
    let decoded := fullyDecode (trimInput
      (str "http://a.example/?b=2&utm_source=x&z=%zz&a=1;c&a=1&b=1"))
    let returned := queryPairs (queryOf
      (cleanURL (str "http://a.example/?b=2&utm_source=x&z=%zz&a=1;c&a=1&b=1")).1)
    let kept := (queryPieces (queryOf decoded)).filterMap keptPiece
    cleanURL (str "http://a.example/?b=2&utm_source=x&z=%zz&a=1;c&a=1&b=1") =
      ((rebuild
          { Scheme := str "http", Host := str "a.example", Path := str "/",
            RawQuery := str "b=2&utm_source=x&z=%zz&a=1;c&a=1&b=1" }).String, none) ∧
    queryPieces (queryOf
        (cleanURL (str "http://a.example/?b=2&utm_source=x&z=%zz&a=1;c&a=1&b=1")).1) =
      returned.map (fun kv => (QueryEscape kv.1, QueryEscape kv.2)) ∧
    returned.Perm kept ∧
    returned.Pairwise (fun a b => strLe a.1 b.1 = true) ∧
    (∀ k, returned.filter (fun kv => decide (kv.1 = k)) =
      kept.filter fun kv => decide (kv.1 = k)) ∧
    (∀ p k v, keptPiece p = some (k, v) ↔
      59 ∉ p.1 ∧ 59 ∉ p.2 ∧ QueryUnescape p.1 = .ok k ∧ QueryUnescape p.2 = .ok v ∧
        k ∉ trackingParams) ∧
    ((∃ e, QueryUnescape decoded = .error e) ∨ ∀ c ∈ decoded, c ≠ 37 ∧ c ≠ 43) ∧
    ((∀ c ∈ queryOf decoded, c ≠ 37 ∧ c ≠ 43) →
      kept = (queryPieces (queryOf decoded)).filter fun p =>
        decide (59 ∉ p.1 ∧ 59 ∉ p.2 ∧ p.1 ∉ trackingParams)) ∧
    cleanURL (str "http://a.example/?discount=20%25&id=5") =
      (str "http://a.example/?id=5", none) ∧
    cleanURL (str "http://a.example/?a=1;b=2&c=3") = (str "http://a.example/?c=3", none) :=
  cleanURL_query_sorted (str "http://a.example/?b=2&utm_source=x&z=%zz&a=1;c&a=1&b=1")
    (by decide)
    { Scheme := str "http", Host := str "a.example", Path := str "/",
      RawQuery := str "b=2&utm_source=x&z=%zz&a=1;c&a=1&b=1" } (by decide) (by decide)

/-- The parameters of the returned URL on an input with a tracking parameter, a
parameter that does not decode, one with a semicolon and two of one name. -/
theorem cleanURL_query_sorted_example :
    cleanURL (str "http://a.example/?b=2&utm_source=x&z=%zz&a=1;c&a=1&b=1") =
      (str "http://a.example/?a=1&b=2&b=1", none) ∧
    (queryPieces (queryOf (fullyDecode (trimInput
        (str "http://a.example/?b=2&utm_source=x&z=%zz&a=1;c&a=1&b=1"))))).filterMap keptPiece =
      [(str "b", str "2"), (str "a", str "1"), (str "b", str "1")] := by
  decide

end Shortner
